import Mathlib

/-! ## Definitions (shallow embedding of the source) -/

/-- Python strings, modelled as lists of characters. -/
abbrev PyStr := List Char

/-- The character class `\s` of the Python `re` module (ASCII part):
space, tab, newline, carriage return, vertical tab, form feed. -/
def isPySpace (c : Char) : Bool :=
  c = ' ' || c = '\t' || c = '\n' || c = '\r' || c = '\x0b' || c = '\x0c'

/-- The character class `\w` of the Python `re` module (ASCII part):
alphanumeric or underscore. -/
def isWordChar (c : Char) : Bool :=
  c.isAlphanum || c = '_'

/-- ASCII uppercase letter, the class `[A-Z]`. -/
def isUpperAZ (c : Char) : Bool :=
  'A' ≤ c && c ≤ 'Z'

/-- Length of the maximal run of characters satisfying `p` at the front. -/
def countLeading (p : Char → Bool) (cs : PyStr) : Nat :=
  (cs.takeWhile p).length

/-- `#+ ` alternative of the heading pattern: one or more `#` then a space. -/
def altHash (cs : PyStr) : Option Nat :=
  let k := countLeading (fun c => c = '#') cs
  if 1 ≤ k ∧ cs[k]? = some ' ' then some (k + 1) else none

/-- `={2,}` alternative of the heading pattern (the `={2,}\n` alternative of
the source pattern is unreachable behind it and is not modelled). -/
def altEq (cs : PyStr) : Option Nat :=
  let k := countLeading (fun c => c = '=') cs
  if 2 ≤ k then some k else none

/-- `\d+\.\s+` alternative of the heading pattern. -/
def altNum (cs : PyStr) : Option Nat :=
  let d := countLeading Char.isDigit cs
  if 1 ≤ d ∧ cs[d]? = some '.' then
    let w := countLeading isPySpace (cs.drop (d + 1))
    if 1 ≤ w then some (d + 1 + w) else none
  else none

/-- `\w+\.\s+` alternative of the heading pattern. -/
def altWord (cs : PyStr) : Option Nat :=
  let d := countLeading isWordChar cs
  if 1 ≤ d ∧ cs[d]? = some '.' then
    let w := countLeading isPySpace (cs.drop (d + 1))
    if 1 ≤ w then some (d + 1 + w) else none
  else none

/-- `[A-Z][A-Z\s]+:` alternative of the heading pattern. -/
def altCaps : PyStr → Option Nat
  | [] => none
  | c :: rest =>
    if isUpperAZ c then
      let r := countLeading (fun x => isUpperAZ x || isPySpace x) rest
      if 1 ≤ r ∧ rest[r]? = some ':' then some (1 + r + 1) else none
    else none

/-- Length of the match of the heading pattern
`(?m)^(?:#+ |={2,}|={2,}\n|\d+\.\s+|\w+\.\s+|[A-Z][A-Z\s]+:)` at the head of
`cs` (which is assumed to sit at a line start), trying the alternatives in
the order the Python regex engine does.  Each alternative is deterministic:
backtracking inside it cannot succeed after the greedy attempt fails. -/
def headingMatchLen (cs : PyStr) : Option Nat :=
  match altHash cs with
  | some n => some n
  | none =>
  match altEq cs with
  | some n => some n
  | none =>
  match altNum cs with
  | some n => some n
  | none =>
  match altWord cs with
  | some n => some n
  | none => altCaps cs

/-- `re.split` of the heading pattern, scanning character by character.
`atStart` records whether the current position is a line start (position 0
or preceded by a newline); `skip` counts characters of a found match still
to consume (no new match is sought inside a match); `acc` accumulates the
current section in reverse. -/
def splitGo : PyStr → Bool → Nat → PyStr → List PyStr
  | [], _, _, acc => [acc.reverse]
  | c :: rest, _, Nat.succ skip, acc => splitGo rest (decide (c = '\n')) skip acc
  | c :: rest, atStart, 0, acc =>
    if atStart then
      match headingMatchLen (c :: rest) with
      | some n => acc.reverse :: splitGo rest (decide (c = '\n')) (n - 1) []
      | none => splitGo rest (decide (c = '\n')) 0 (c :: acc)
    else splitGo rest (decide (c = '\n')) 0 (c :: acc)

/-- `re.split(heading_pattern, text)`: the sections of the text, with the
matched heading delimiters discarded. -/
def headingSections (text : PyStr) : List PyStr :=
  splitGo text true 0 []

/-- Python `str.strip()` (ASCII whitespace). -/
def pstrip (cs : PyStr) : PyStr :=
  ((cs.dropWhile isPySpace).reverse.dropWhile isPySpace).reverse

/-- The accumulation loop of `chunk_by_headings`: gather sections into a
running buffer, flushing when the `len//4` token estimate of buffer plus
next section exceeds the target and the buffer is non-empty. -/
def accumulate : List PyStr → PyStr → Nat → List PyStr
  | [], cur, _ => if pstrip cur ≠ [] then [pstrip cur] else []
  | s :: rest, cur, target =>
    let s1 := pstrip s
    if s1 = [] then accumulate rest cur target
    else if target < cur.length / 4 + s1.length / 4 ∧ cur ≠ [] then
      pstrip cur :: accumulate rest s1 target
    else if cur = [] then accumulate rest s1 target
    else accumulate rest (cur ++ '\n' :: '\n' :: s1) target

/-- `chunk_by_headings` from `libs/common/chunking.py`.  The
`keep_headings` flag is accepted but never used by the source. -/
def chunk_by_headings (text : PyStr) (keep_headings : Bool)
    (target_tokens : Nat) : List PyStr :=
  accumulate (headingSections text) [] target_tokens

/-- The predicate selecting non-whitespace characters. -/
def nonSpace (c : Char) : Bool := !isPySpace c

/-- Non-whitespace characters of a string, in order. -/
def filterNS (cs : PyStr) : PyStr :=
  cs.filter nonSpace

/-- A document as seen by the dedup check.  `canonical_url` is
`doc.get("canonical_url", doc["url"])` already resolved; `content_hash`
models `doc.get("content_hash")` with `[]` for a missing or empty hash
(both falsy in Python). -/
structure DedupDoc where
  canonical_url : PyStr
  content_hash : PyStr

/-- The module-level `_seen_urls` and `_seen_hashes` sets, modelled as
lists queried by membership. -/
structure DedupState where
  seen_urls : List PyStr
  seen_hashes : List PyStr

/-- `is_duplicate` from `libs/common/dedupe.py`: check-then-insert; returns
the verdict together with the updated store state. -/
def is_duplicate (doc : DedupDoc) (st : DedupState) : Bool × DedupState :=
  if doc.canonical_url ∈ st.seen_urls then (true, st)
  else if doc.content_hash ≠ [] ∧ doc.content_hash ∈ st.seen_hashes then (true, st)
  else
    (false,
      { seen_urls := doc.canonical_url :: st.seen_urls
        seen_hashes :=
          if doc.content_hash ≠ [] then doc.content_hash :: st.seen_hashes
          else st.seen_hashes })

/-- A sequence of duplicate checks, threading the store state. -/
def runChecks (docs : List DedupDoc) (st : DedupState) : DedupState :=
  docs.foldl (fun s d => (is_duplicate d s).2) st

/-- A search result returned by the search collaborator.  `content = []`
models a missing or empty `"content"` field (both falsy in Python). -/
structure SearchResult where
  url : PyStr
  title : PyStr
  content : PyStr

/-- A citation record as built by `corroborate_claims`. -/
structure Citation where
  claim : PyStr
  url : PyStr
  title : PyStr
  snippet : PyStr
deriving DecidableEq

/-- The filter `result.get("content") and claim.lower() in
result["content"].lower()`: the result has (non-empty) content and that
content case-insensitively contains the claim text. -/
def matchesClaim (claim : PyStr) (r : SearchResult) : Bool :=
  !r.content.isEmpty
    && decide (claim.map Char.toLower <:+: r.content.map Char.toLower)

/-- The per-claim citation list comprehension of `corroborate_claims`
(snippet is the first 200 content characters plus an ellipsis). -/
def claimCitations (search : PyStr → List SearchResult) (claim : PyStr) :
    List Citation :=
  ((search claim).filter (matchesClaim claim)).map (fun r =>
    { claim := claim, url := r.url, title := r.title,
      snippet := r.content.take 200 ++ "...".data })

/-- `corroborate_claims` from `libs/tavily_client/client.py`.  The search
collaborator (`tavily_search(claim, max_results=5)`) is passed as the
oracle `search`.  The Python float test `verified_claims >= len(claims) * 0.8`
is modelled exactly as `4 * len ≤ 5 * verified` (for every feasible length
the IEEE double product `n * 0.8` compares with an integer exactly as the
rational `4*n/5` does). -/
def corroborate_claims (search : PyStr → List SearchResult)
    (claims : List PyStr) (required : Nat) : Bool × List Citation :=
  let p := claims.foldl
    (fun acc claim =>
      let cc := claimCitations search claim
      if required ≤ cc.length then (acc.1 + 1, acc.2 ++ cc.take required)
      else acc)
    (0, [])
  (decide (4 * claims.length ≤ 5 * p.1), p.2)

/-- Number of evidence searches issued by `corroborate_claims`: the loop
performs exactly one `tavily_search` call per claim. -/
def corroborate_search_count (claims : List PyStr) : Nat :=
  claims.length

/-- A claim counts as verified exactly when at least `required` of its
search results match it. -/
def claimVerified (search : PyStr → List SearchResult) (required : Nat)
    (claim : PyStr) : Bool :=
  decide (required ≤ (search claim).countP (matchesClaim claim))

/-- A concrete search oracle for the C1 witness: the claims a–d each get
two matching results, claim e gets none. -/
def exSearch : PyStr → List SearchResult := fun c =>
  if c = "e".data then []
  else [⟨"https://s1".data, "t1".data, 'x' :: c⟩,
        ⟨"https://s2".data, "t2".data, 'y' :: c⟩]

/-- The classification labels dictionary.  Field names mirror the Python
keys `doc_type`, `language`, `audience`. -/
structure Labels where
  doc_type : PyStr
  language : PyStr
  audience : PyStr
deriving DecidableEq

/-- An extracted entity.  `etype` mirrors the Python key `type`; the
`confidence` float is never read by the code under verification and is
omitted. -/
structure Entity where
  name : PyStr
  etype : PyStr
deriving DecidableEq

/-- An extracted relation.  The `confidence` float is never read by the
code under verification and is omitted. -/
structure Edge where
  source : PyStr
  target : PyStr
  relation : PyStr
deriving DecidableEq

/-- The enriched payload sent by `classify_ner` to the editorial queue:
`{**doc, labels, entities, edges, chunks, vectors}`.  Embedding vectors are
opaque collaborator data (their float contents are never computed on), so
an arbitrary carrier `List Int` stands in for them. -/
structure UPayload where
  text : PyStr
  labels : Labels
  entities : List Entity
  edges : List Edge
  chunks : List PyStr
  vectors : List (List Int)

/-- `classify_ner` from `apps/worker-understanding/tasks.py`.  Each
sub-capability is guarded by `try/except`: the oracles `oclassify`,
`oner`, `oembed` give the collaborator results (`none` models a raise) and
`chunkFails` models a raise inside `chunk_by_headings`.  The returned
payload is the message unconditionally sent to the editorial queue. -/
def classify_ner (text : PyStr) (oclassify : Option Labels)
    (oner : Option (List Entity × List Edge)) (chunkFails : Bool)
    (oembed : Option (List (List Int))) : UPayload :=
  let labels := match oclassify with
    | some l => l
    | none => ⟨"article".data, "en".data, "general".data⟩
  let ee := match oner with
    | some p => p
    | none => ([], [])
  let chunks := if chunkFails then [text] else chunk_by_headings text true 500
  let vectors := match oembed with
    | some v => v
    | none => []
  { text := text, labels := labels, entities := ee.1, edges := ee.2,
    chunks := chunks, vectors := vectors }

/-- The payload fields written by `summarize_and_qc` before the message is
sent to the ingestion queue. -/
structure EdPayload where
  text : PyStr
  abstract : PyStr
  abstract_citations : List Citation
  editorial_claims : List PyStr
  needs_review : Bool

/-- `summarize_and_qc` from `apps/worker-editorial/tasks.py`.  `osummarize`
is the summariser oracle (`none` models a raise; the fallback is
`text[:500] + "..."` only when `len(text) > 500`, otherwise the bare
text); `oclaims` is the claim-extraction oracle (`none` models a raise,
success is capped at 10 claims); corroboration runs only when the claim
list is non-empty, with `corrRaises` modelling a raise inside
`corroborate_claims` (which leaves citations empty and the review flag
unset).  The result is the message unconditionally sent to the ingestion
queue. -/
def summarize_and_qc (text : PyStr) (osummarize : Option PyStr)
    (oclaims : Option (List PyStr)) (search : PyStr → List SearchResult)
    (corrRaises : Bool) : EdPayload :=
  let summary := match osummarize with
    | some s => s
    | none => if 500 < text.length then text.take 500 ++ "...".data else text
  let claims := match oclaims with
    | some cs => cs.take 10
    | none => []
  let cr :=
    if claims ≠ [] then
      if corrRaises then ([], false)
      else
        let r := corroborate_claims search claims 2
        (r.2, !r.1)
    else ([], false)
  { text := text, abstract := summary, abstract_citations := cr.1,
    editorial_claims := claims, needs_review := cr.2 }

/-- One statement of the Cypher write built by `graph_upsert`.  The
concrete string formatting (`MERGE (n{i}:{type} {name: ...})`,
`MERGE (n{s})-[:{rel}]->(n{t})`) is abstracted into its content: the
statement list is the graph write (an empty list means no query is
issued, matching the early return and the `if cypher_parts:` guard). -/
inductive CypherPart where
  | node (idx : Nat) (etype : PyStr) (name : PyStr)
  | rel (src : Nat) (tgt : Nat) (relation : PyStr)
deriving DecidableEq

/-- The `next((i for i, e in enumerate(entities) if e["name"] == ...), None)`
resolution of one edge: the `MERGE` relationship statement if both
endpoint names resolve to entity indices, `None` otherwise. -/
def resolveEdge (entities : List Entity) (e : Edge) : Option CypherPart :=
  match entities.findIdx? (fun x => decide (x.name = e.source)),
      entities.findIdx? (fun x => decide (x.name = e.target)) with
  | some s, some t => some (.rel s t e.relation)
  | _, _ => none

/-- Whether both endpoints of an edge resolve against the entity list. -/
def resolvable (entities : List Entity) (e : Edge) : Bool :=
  entities.any (fun x => decide (x.name = e.source))
    && entities.any (fun x => decide (x.name = e.target))

/-- `graph_upsert` from `libs/seven011_client/client.py`: one `MERGE` node
statement per entity (in enumeration order) followed by one `MERGE`
relationship statement per edge both of whose endpoint names resolve;
other edges contribute nothing and raise nothing (the function is total). -/
def graph_upsert (entities : List Entity) (edges : List Edge) :
    List CypherPart :=
  (entities.enum.map (fun p => CypherPart.node p.1 p.2.etype p.2.name))
    ++ edges.filterMap (resolveEdge entities)

/-- Characters allowed in a URL scheme (CPython `scheme_chars`). -/
def isSchemeChar (c : Char) : Bool :=
  c.isAlphanum || c = '+' || c = '-' || c = '.'

/-- Split at the first occurrence of `ch`: `some (before, after)` with the
separator removed, or `none` when `ch` does not occur. -/
def breakAtFirst (ch : Char) : PyStr → Option (PyStr × PyStr)
  | [] => none
  | c :: rest =>
    if c = ch then some ([], rest)
    else match breakAtFirst ch rest with
      | some (a, b) => some (c :: a, b)
      | none => none

/-- The six components of Cthe Python `ParseResult`. -/
structure UrlParts where
  scheme : PyStr
  netloc : PyStr
  path : PyStr
  params : PyStr
  query : PyStr
  fragment : PyStr
deriving DecidableEq

/-- A character that does not end the netloc (CPython `_splitnetloc`
stops at `/`, `?` or `#`). -/
def notNetlocEnd (c : Char) : Bool :=
  !(c = '/' || c = '?' || c = '#')

/-- CPython `urllib.parse.urlsplit`. -/
def urlsplit (url : PyStr) : UrlParts :=
  let sp : PyStr × PyStr :=
    match breakAtFirst ':' url with
    | some (pre, post) =>
      match pre with
      | [] => ([], url)
      | c :: _ =>
        if c.isAlpha && pre.all isSchemeChar then (pre.map Char.toLower, post)
        else ([], url)
    | none => ([], url)
  let rest := sp.2
  let np : PyStr × PyStr :=
    match rest with
    | c1 :: c2 :: r2 =>
      if c1 = '/' ∧ c2 = '/' then
        (r2.takeWhile notNetlocEnd, r2.dropWhile notNetlocEnd)
      else ([], rest)
    | _ => ([], rest)
  let fp : PyStr × PyStr :=
    match breakAtFirst '#' np.2 with
    | some (a, b) => (a, b)
    | none => (np.2, [])
  let qp : PyStr × PyStr :=
    match breakAtFirst '?' fp.1 with
    | some (a, b) => (a, b)
    | none => (fp.1, [])
  ⟨sp.1, np.1, qp.1, [], qp.2, fp.2⟩

/-- The schemes for which `urlparse` splits `;params` from the last path
segment (CPython `uses_params`, which includes the empty scheme). -/
def usesParams : List PyStr :=
  [[], "ftp".data, "hdl".data, "prospero".data, "http".data, "imap".data,
   "https".data, "shttp".data, "rtsp".data, "rtspu".data, "sip".data,
   "sips".data, "mms".data, "sftp".data, "tel".data]

/-- CPython `urllib.parse._splitparams`: split at the first `;` at or
after the last `/` (or the first `;` when there is no `/`). -/
def splitparams (url : PyStr) : PyStr × PyStr :=
  if '/' ∈ url then
    match breakAtFirst '/' url.reverse with
    | some (revAfter, revBefore) =>
      match breakAtFirst ';' revAfter.reverse with
      | some (p1, p2) => (revBefore.reverse ++ '/' :: p1, p2)
      | none => (url, [])
    | none => (url, [])
  else
    match breakAtFirst ';' url with
    | some (p1, p2) => (p1, p2)
    | none => (url, [])

/-- CPython `urllib.parse.urlparse`. -/
def urlparse (url : PyStr) : UrlParts :=
  let s := urlsplit url
  if s.scheme ∈ usesParams ∧ ';' ∈ s.path then
    let pp := splitparams s.path
    { s with path := pp.1, params := pp.2 }
  else s

/-- The fixed tracking-parameter denylist of `canonicalize_url`. -/
def tracking_params : List PyStr :=
  ["utm_source".data, "utm_medium".data, "utm_campaign".data,
   "utm_term".data, "utm_content".data, "fbclid".data, "gclid".data,
   "wt_mc".data, "wt_zmc".data, "_ga".data, "_gid".data]

/-- Python `str.split(sep)` for a one-character separator: `n + 1`
(possibly empty) segments for `n` separators. -/
def splitOnChar (ch : Char) : PyStr → List PyStr
  | [] => [[]]
  | c :: rest =>
    if c = ch then [] :: splitOnChar ch rest
    else match splitOnChar ch rest with
      | s :: ss => (c :: s) :: ss
      | [] => [[c]]

/-- Python `sep.join` for a one-character separator. -/
def joinSep (ch : Char) : List PyStr → PyStr
  | [] => []
  | [s] => s
  | s :: rest => s ++ ch :: joinSep ch rest

/-- The filtering loop of `canonicalize_url`: keep the `&`-segments that
contain `=` and whose key (the text before the first `=`) is not a
tracking parameter; segments without `=` are skipped. -/
def keepParams : List PyStr → List PyStr
  | [] => []
  | s :: rest =>
    if '=' ∈ s ∧ s.takeWhile (fun c => !(c = '=')) ∉ tracking_params then
      s :: keepParams rest
    else keepParams rest

/-- `canonicalize_url` from `libs/common/extract.py`. -/
def canonicalize_url (url : PyStr) : PyStr :=
  let p := urlparse url
  let query :=
    if p.query ≠ [] then joinSep '&' (keepParams (splitOnChar '&' p.query))
    else []
  p.scheme ++ "://".data ++ p.netloc ++ p.path
    ++ (if query ≠ [] then '?' :: query else [])

/-- The behaviour claim C5 literally asserts: strip exactly the query
parameters whose key is in the tracking denylist (reading `utm_*` as any
`utm_`-prefixed key) and return scheme + host + path + the remaining
query otherwise unchanged. -/
def canonicalize_url_claimed (url : PyStr) : PyStr :=
  let p := urlparse url
  let kept := (splitOnChar '&' p.query).filter (fun s =>
    let key := s.takeWhile (fun c => !(c = '='))
    !(decide (key ∈ tracking_params) || decide (key.take 4 = "utm_".data)))
  let query := if p.query ≠ [] then joinSep '&' kept else []
  p.scheme ++ "://".data ++ p.netloc ++ p.path
    ++ (if query ≠ [] then '?' :: query else [])

/-- The scheme-extraction step of `urlsplit`. -/
def schemeSplit (url : PyStr) : PyStr × PyStr :=
  match breakAtFirst ':' url with
  | some (pre, post) =>
    match pre with
    | [] => ([], url)
    | c :: _ =>
      if c.isAlpha && pre.all isSchemeChar then (pre.map Char.toLower, post)
      else ([], url)
  | none => ([], url)

/-- The netloc-extraction step of `urlsplit`. -/
def netlocSplit (rest : PyStr) : PyStr × PyStr :=
  match rest with
  | c1 :: c2 :: r2 =>
    if c1 = '/' ∧ c2 = '/' then
      (r2.takeWhile notNetlocEnd, r2.dropWhile notNetlocEnd)
    else ([], rest)
  | _ => ([], rest)

/-- The fragment-extraction step of `urlsplit`. -/
def fragSplit (l : PyStr) : PyStr × PyStr :=
  match breakAtFirst '#' l with
  | some (a, b) => (a, b)
  | none => (l, [])

/-- The query-extraction step of `urlsplit`. -/
def querySplit (l : PyStr) : PyStr × PyStr :=
  match breakAtFirst '?' l with
  | some (a, b) => (a, b)
  | none => (l, [])

/-! ## Theorems -/

theorem filter_dropWhile_of_imp {p q : Char → Bool}
    (h : ∀ c, p c = true → q c = false) :
    ∀ l : PyStr, (l.dropWhile p).filter q = l.filter q := by
  intro l
  induction l with
  | nil => rfl
  | cons c l ih =>
    by_cases hc : p c
    · rw [List.dropWhile_cons_of_pos hc, ih, List.filter_cons_of_neg (by simp [h c hc])]
    · rw [List.dropWhile_cons_of_neg hc]

theorem pstrip_eq_rdropWhile (l : PyStr) :
    pstrip l = List.rdropWhile isPySpace (l.dropWhile isPySpace) := rfl

theorem space_not_nonSpace {c : Char} (hc : isPySpace c = true) : nonSpace c = false := by
  simp [nonSpace, hc]

theorem filterNS_pstrip (l : PyStr) : filterNS (pstrip l) = filterNS l := by
  rw [pstrip_eq_rdropWhile, List.rdropWhile]
  unfold filterNS
  rw [List.filter_reverse, filter_dropWhile_of_imp (fun c hc => space_not_nonSpace hc),
    List.filter_reverse, List.reverse_reverse,
    filter_dropWhile_of_imp (fun c hc => space_not_nonSpace hc)]

theorem pstrip_length_le (l : PyStr) : (pstrip l).length ≤ l.length := by
  rw [pstrip_eq_rdropWhile]
  calc (List.rdropWhile isPySpace (l.dropWhile isPySpace)).length
      ≤ (l.dropWhile isPySpace).length :=
        (by
          have hpw := List.rdropWhile_prefix isPySpace (l.dropWhile isPySpace)
          exact hpw.sublist.length_le)
    _ ≤ l.length := (List.dropWhile_sublist _).length_le

theorem pstrip_idem (l : PyStr) : pstrip (pstrip l) = pstrip l := by
  rw [pstrip_eq_rdropWhile, pstrip_eq_rdropWhile]
  have h1 : (List.rdropWhile isPySpace (l.dropWhile isPySpace)).dropWhile isPySpace
      = List.rdropWhile isPySpace (l.dropWhile isPySpace) := by
    rcases hp : List.rdropWhile isPySpace (l.dropWhile isPySpace) with _ | ⟨c, cs⟩
    · rfl
    · have hpre := List.rdropWhile_prefix isPySpace (l.dropWhile isPySpace)
      rw [hp] at hpre
      obtain ⟨tail, htail⟩ := hpre
      have hc : isPySpace c = false := by
        have := List.head?_dropWhile_not isPySpace l
        rw [← htail] at this
        simp at this
        exact this
      simp [List.dropWhile, hc]
  rw [h1, List.rdropWhile_idempotent]

theorem filterNS_eq_nil_of_pstrip_eq_nil {l : PyStr} (h : pstrip l = []) :
    filterNS l = [] := by
  rw [← filterNS_pstrip, h]
  rfl

theorem filterNS_append (a b : PyStr) :
    filterNS (a ++ b) = filterNS a ++ filterNS b :=
  List.filter_append a b

/-- The chunk accumulation loop preserves the non-whitespace characters of
the sections, in order. -/
theorem accumulate_flatten_filter (t : Nat) :
    ∀ (ss : List PyStr) (cur : PyStr),
      filterNS (accumulate ss cur t).flatten = filterNS cur ++ filterNS ss.flatten := by
  intro ss
  induction ss with
  | nil =>
    intro cur
    simp only [accumulate]
    split
    · show filterNS ([pstrip cur].flatten) = filterNS cur ++ filterNS [].flatten
      simp only [List.flatten_cons, List.flatten_nil, List.append_nil]
      rw [filterNS_pstrip]
      simp [filterNS]
    · rename_i h
      simp only [ne_eq, Decidable.not_not] at h
      show filterNS (([] : List PyStr).flatten) = filterNS cur ++ filterNS [].flatten
      simp only [List.flatten_nil, List.append_nil]
      rw [filterNS_eq_nil_of_pstrip_eq_nil h]
      simp [filterNS]
  | cons s rest ih =>
    intro cur
    show filterNS (accumulate (s :: rest) cur t).flatten
        = filterNS cur ++ filterNS (s ++ rest.flatten)
    rw [filterNS_append]
    simp only [accumulate]
    split
    · rename_i h1
      rw [ih cur, ← filterNS_pstrip s, h1]
      show _ = filterNS cur ++ (filterNS [] ++ filterNS rest.flatten)
      rfl
    · split
      · rename_i h1 h2
        show filterNS (pstrip cur ++ (accumulate rest (pstrip s) t).flatten) = _
        rw [filterNS_append, filterNS_pstrip, ih (pstrip s), filterNS_pstrip]
      · split
        · rename_i h1 h2 h3
          rw [ih (pstrip s), filterNS_pstrip, h3]
          show filterNS [] ++ _ = _
          rfl
        · rename_i h1 h2 h3
          rw [ih (cur ++ '\n' :: '\n' :: pstrip s), filterNS_append]
          show filterNS cur ++ filterNS ('\n' :: '\n' :: pstrip s) ++ _ = _
          have : filterNS ('\n' :: '\n' :: pstrip s) = filterNS (pstrip s) := rfl
          rw [this, filterNS_pstrip, List.append_assoc]

/-- The sections produced by the heading split form a sublist of the input:
the split only discards (delimiter) characters and preserves order. -/
theorem splitGo_flatten_sublist :
    ∀ (cs : PyStr) (b : Bool) (skip : Nat) (acc : PyStr),
      ((splitGo cs b skip acc).flatten).Sublist (acc.reverse ++ cs) := by
  intro cs
  induction cs with
  | nil =>
    intro b skip acc
    simp [splitGo]
  | cons c rest ih =>
    intro b skip acc
    match skip with
    | Nat.succ k =>
      simp only [splitGo]
      refine (ih _ k acc).trans ?_
      exact List.Sublist.append (List.Sublist.refl _) (List.sublist_cons_self c rest)
    | 0 =>
      by_cases hb : b
      · subst hb
        simp only [splitGo, if_true]
        cases hm : headingMatchLen (c :: rest) with
        | some n =>
          simp only [hm, List.flatten_cons]
          have h2 := ih (decide (c = '\n')) (n - 1) []
          simp only [List.reverse_nil, List.nil_append] at h2
          refine List.Sublist.append (List.Sublist.refl _) (h2.trans ?_)
          exact List.sublist_cons_self c rest
        | none =>
          simp only [hm]
          have h2 := ih (decide (c = '\n')) 0 (c :: acc)
          simpa using h2
      · simp only [splitGo, if_neg hb]
        have h2 := ih (decide (c = '\n')) 0 (c :: acc)
        simpa using h2

/-- Size invariant of the accumulation loop: every emitted chunk is either a
single stripped section (possibly arbitrarily long) or has length at most
`4 * target + 8` (the `4 * target` budget plus at most `3 + 3` of `len // 4`
rounding slack plus the 2-character `"\n\n"` separator). -/
theorem accumulate_chunk_size (t : Nat) (S : List PyStr) :
    ∀ (ss : List PyStr) (cur : PyStr),
      (∀ s, s ∈ ss → s ∈ S) →
      (cur = [] ∨ (∃ s, s ∈ S ∧ cur = pstrip s) ∨ cur.length ≤ 4 * t + 8) →
      ∀ c, c ∈ accumulate ss cur t →
        (∃ s, s ∈ S ∧ c = pstrip s) ∨ c.length ≤ 4 * t + 8 := by
  intro ss
  induction ss with
  | nil =>
    intro cur _ hinv c hc
    simp only [accumulate] at hc
    split at hc
    · rename_i hne
      simp only [List.mem_singleton] at hc
      subst hc
      rcases hinv with h0 | ⟨s, hs, hcur⟩ | hlen
      · exact absurd (by rw [h0]; rfl) hne
      · exact Or.inl ⟨s, hs, by rw [hcur, pstrip_idem]⟩
      · exact Or.inr ((pstrip_length_le cur).trans hlen)
    · simp at hc
  | cons s rest ih =>
    intro cur hss hinv c hc
    have hsS : s ∈ S := hss s (List.mem_cons_self s rest)
    have hrest : ∀ x, x ∈ rest → x ∈ S := fun x hx => hss x (List.mem_cons_of_mem s hx)
    simp only [accumulate] at hc
    split at hc
    · exact ih cur hrest hinv c hc
    · split at hc
      · rename_i h1 h2
        rcases List.mem_cons.mp hc with hc1 | hc2
        · subst hc1
          rcases hinv with h0 | ⟨s', hs', hcur⟩ | hlen
          · exact absurd h0 h2.2
          · exact Or.inl ⟨s', hs', by rw [hcur, pstrip_idem]⟩
          · exact Or.inr ((pstrip_length_le cur).trans hlen)
        · exact ih (pstrip s) hrest (Or.inr (Or.inl ⟨s, hsS, rfl⟩)) c hc2
      · split at hc
        · exact ih (pstrip s) hrest (Or.inr (Or.inl ⟨s, hsS, rfl⟩)) c hc
        · rename_i h1 h2 h3
          refine ih (cur ++ '\n' :: '\n' :: pstrip s) hrest (Or.inr (Or.inr ?_)) c hc
          have hle : cur.length / 4 + (pstrip s).length / 4 ≤ t := by
            by_contra hgt
            exact h2 ⟨by omega, h3⟩
          have hcm := Nat.div_add_mod cur.length 4
          have hsm := Nat.div_add_mod (pstrip s).length 4
          have hcm4 : cur.length % 4 < 4 := Nat.mod_lt _ (by omega)
          have hsm4 : (pstrip s).length % 4 < 4 := Nat.mod_lt _ (by omega)
          simp only [List.length_append, List.length_cons]
          omega

/-- C3.  Chunker coverage invariant: for every input text, the
concatenation of the chunks returned by `chunk_by_headings` contains
exactly the non-whitespace characters, in order, of the concatenation of
the heading-split sections; the sections themselves are a sublist of the
input (the split only removes the matched heading delimiters); and the
`keep_headings` flag has no effect, so heading delimiters are discarded
even when it is `true`. -/
theorem claim_C3_chunker_coverage (text : PyStr) (keep : Bool) (t : Nat) :
    filterNS (chunk_by_headings text keep t).flatten
        = filterNS (headingSections text).flatten
      ∧ ((headingSections text).flatten).Sublist text
      ∧ chunk_by_headings text true t = chunk_by_headings text false t := by
  refine ⟨?_, ?_, rfl⟩
  · show filterNS (accumulate (headingSections text) [] t).flatten = _
    rw [accumulate_flatten_filter]
    rfl
  · have := splitGo_flatten_sublist text true 0 []
    simpa using this

/-- C4 (amended).  Chunk size bound: every chunk returned by
`chunk_by_headings` either is a single stripped section of the
heading-based split (such a chunk can be arbitrarily long) or has length
at most `targetTokens * 4 + 8`; the `+ 8` slack (two `len // 4` roundings
plus the two-character `"\n\n"` separator) is unavoidable, see the
counterexample to the claim as originally stated. -/
theorem claim_C4_chunk_size (text : PyStr) (keep : Bool) (t : Nat) :
    ∀ c ∈ chunk_by_headings text keep t,
      (∃ s, s ∈ headingSections text ∧ c = pstrip s) ∨ c.length ≤ 4 * t + 8 := by
  intro c hc
  exact accumulate_chunk_size t (headingSections text) (headingSections text) []
    (fun _ h => h) (Or.inl rfl) c hc

/-- Witness for C4: on `"first part\n== \nsecond"` with `target_tokens = 2`
the chunk `"first part"` is returned, and it satisfies the size
disjunction. -/
theorem claim_C4_chunk_size_witness :
    "first part".data ∈ chunk_by_headings "first part\n== \nsecond".data true 2
      ∧ ((∃ s, s ∈ headingSections "first part\n== \nsecond".data
            ∧ "first part".data = pstrip s)
          ∨ ("first part".data).length ≤ 4 * 2 + 8) :=
  ⟨by decide, claim_C4_chunk_size "first part\n== \nsecond".data true 2
    "first part".data (by decide)⟩

/-- Counterexample to C4 as stated.  On the text
`"abc\n1. de\n2. fgh\n3. ijk\n4. lm\n5. nop\n6. qrs"` with
`target_tokens = 1`, at least two returned chunks (namely two chunks of
length 12) exceed the `target_tokens * 4 = 4` character budget by more
than the length of **every** section of the heading-based split (all raw
sections have length at most 4), so the bound fails even with one chunk
excepted. -/
theorem claim_C4_counterexample :
    2 ≤ (chunk_by_headings "abc\n1. de\n2. fgh\n3. ijk\n4. lm\n5. nop\n6. qrs".data
          true 1).countP
        (fun c =>
          (headingSections "abc\n1. de\n2. fgh\n3. ijk\n4. lm\n5. nop\n6. qrs".data).all
            (fun s => decide (4 * 1 + s.length < c.length))) := by
  decide

theorem is_duplicate_mono_urls (d : DedupDoc) (st : DedupState) {u : PyStr}
    (h : u ∈ st.seen_urls) : u ∈ ((is_duplicate d st).2).seen_urls := by
  unfold is_duplicate
  split
  · exact h
  · split
    · exact h
    · exact List.mem_cons_of_mem _ h

theorem is_duplicate_mono_hashes (d : DedupDoc) (st : DedupState) {h0 : PyStr}
    (h : h0 ∈ st.seen_hashes) : h0 ∈ ((is_duplicate d st).2).seen_hashes := by
  unfold is_duplicate
  split
  · exact h
  · split
    · exact h
    · show h0 ∈ (if d.content_hash ≠ [] then _ else _)
      split
      · exact List.mem_cons_of_mem _ h
      · exact h

theorem runChecks_mono_urls (docs : List DedupDoc) :
    ∀ (st : DedupState) {u : PyStr}, u ∈ st.seen_urls →
      u ∈ (runChecks docs st).seen_urls := by
  induction docs with
  | nil => intro st u h; exact h
  | cons d rest ih =>
    intro st u h
    exact ih _ (is_duplicate_mono_urls d st h)

theorem runChecks_mono_hashes (docs : List DedupDoc) :
    ∀ (st : DedupState) {h0 : PyStr}, h0 ∈ st.seen_hashes →
      h0 ∈ (runChecks docs st).seen_hashes := by
  induction docs with
  | nil => intro st h0 h; exact h
  | cons d rest ih =>
    intro st h0 h
    exact ih _ (is_duplicate_mono_hashes d st h)

theorem is_duplicate_true_of_seen (d : DedupDoc) (st : DedupState)
    (h : d.canonical_url ∈ st.seen_urls
        ∨ (d.content_hash ≠ [] ∧ d.content_hash ∈ st.seen_hashes)) :
    (is_duplicate d st).1 = true := by
  unfold is_duplicate
  split
  · rfl
  · split
    · rfl
    · rename_i h1 h2
      rcases h with h | h
      · exact absurd h h1
      · exact absurd h h2

/-- C2.  Dedup store: if the canonical URL and the content hash of a document are
both unseen (and the hash is present), the first `is_duplicate` check
returns `false` and records both; after any further sequence of checks,
every document sharing either that canonical URL or that content hash is
flagged as a duplicate. -/
theorem claim_C2_dedup (st : DedupState) (url hash : PyStr)
    (hu : url ∉ st.seen_urls) (hh : hash ∉ st.seen_hashes) (hne : hash ≠ []) :
    (is_duplicate ⟨url, hash⟩ st).1 = false
      ∧ ∀ (docs : List DedupDoc) (d : DedupDoc),
          d.canonical_url = url ∨ d.content_hash = hash →
          (is_duplicate d
            (runChecks docs (is_duplicate ⟨url, hash⟩ st).2)).1 = true := by
  have hst1 : (is_duplicate ⟨url, hash⟩ st).2
      = { seen_urls := url :: st.seen_urls, seen_hashes := hash :: st.seen_hashes } := by
    unfold is_duplicate
    simp [hu, hh, hne]
  constructor
  · unfold is_duplicate
    simp [hu, hh]
  · intro docs d hd
    apply is_duplicate_true_of_seen
    rcases hd with hd | hd
    · left
      apply runChecks_mono_urls
      rw [hst1, hd]
      exact List.mem_cons_self _ _
    · right
      refine ⟨by rw [hd]; exact hne, ?_⟩
      apply runChecks_mono_hashes
      rw [hst1, hd]
      exact List.mem_cons_self _ _

/-- Witness for C2: starting from the empty store, checking
`(https://a.com/x, h1)` returns `false`; re-checking the same pair
returns `true`; and a different URL with the same content hash is also
flagged. -/
theorem claim_C2_dedup_witness :
    (is_duplicate ⟨"https://a.com/x".data, "h1".data⟩ ⟨[], []⟩).1 = false
      ∧ (is_duplicate ⟨"https://a.com/x".data, "h1".data⟩
          (runChecks []
            (is_duplicate ⟨"https://a.com/x".data, "h1".data⟩ ⟨[], []⟩).2)).1 = true
      ∧ (is_duplicate ⟨"https://b.com/y".data, "h1".data⟩
          (runChecks []
            (is_duplicate ⟨"https://a.com/x".data, "h1".data⟩ ⟨[], []⟩).2)).1 = true := by
  have h := claim_C2_dedup ⟨[], []⟩ "https://a.com/x".data "h1".data
    (by decide) (by decide) (by decide)
  exact ⟨h.1, h.2 [] ⟨"https://a.com/x".data, "h1".data⟩ (Or.inl rfl),
    h.2 [] ⟨"https://b.com/y".data, "h1".data⟩ (Or.inr rfl)⟩

theorem claimCitations_length (search : PyStr → List SearchResult)
    (claim : PyStr) :
    (claimCitations search claim).length
      = (search claim).countP (matchesClaim claim) := by
  unfold claimCitations
  rw [List.length_map, List.countP_eq_length_filter]

theorem corroborate_foldl_spec (search : PyStr → List SearchResult)
    (required : Nat) :
    ∀ (claims : List PyStr) (v : Nat) (cits : List Citation),
      (claims.foldl
        (fun acc claim =>
          let cc := claimCitations search claim
          if required ≤ cc.length then (acc.1 + 1, acc.2 ++ cc.take required)
          else acc)
        (v, cits)).1
          = v + claims.countP (claimVerified search required)
        ∧ (claims.foldl
            (fun acc claim =>
              let cc := claimCitations search claim
              if required ≤ cc.length then (acc.1 + 1, acc.2 ++ cc.take required)
              else acc)
            (v, cits)).2.length
          = cits.length + required * claims.countP (claimVerified search required) := by
  intro claims
  induction claims with
  | nil => intro v cits; simp
  | cons c rest ih =>
    intro v cits
    simp only [List.foldl_cons]
    by_cases hc : required ≤ (claimCitations search c).length
    · have hv : claimVerified search required c = true := by
        unfold claimVerified
        rw [← claimCitations_length]
        exact decide_eq_true hc
      rw [if_pos hc]
      refine ⟨?_, ?_⟩
      · rw [(ih (v + 1) (cits ++ (claimCitations search c).take required)).1,
          List.countP_cons, hv]
        simp only [if_pos rfl, if_true]
        omega
      · rw [(ih (v + 1) (cits ++ (claimCitations search c).take required)).2,
          List.countP_cons, hv]
        rw [List.length_append, List.length_take]
        have hmin : min required (claimCitations search c).length = required :=
          Nat.min_eq_left hc
        rw [hmin]
        simp only [if_pos rfl, if_true]
        ring
    · have hv : claimVerified search required c = false := by
        unfold claimVerified
        rw [← claimCitations_length]
        exact decide_eq_false hc
      rw [if_neg hc]
      refine ⟨?_, ?_⟩
      · rw [(ih v cits).1, List.countP_cons, hv]
        simp
      · rw [(ih v cits).2, List.countP_cons, hv]
        simp

/-- C1.  `corroborate_claims`: a claim is verified exactly when at least
`required` of its (at most 5) evidence results match it (content present
and case-insensitively containing the claim text); exactly `required`
citations are appended per verified claim; acceptance holds if and only if
`verified / total ≥ 0.8` (as the exact comparison `4 * total ≤ 5 * verified`);
in particular 4 verified out of 5 is accepted and 3 out of 5 is not. -/
theorem claim_C1_corroborate (search : PyStr → List SearchResult)
    (claims : List PyStr) (required : Nat)
    (hne : claims ≠ []) (hr : 1 ≤ required)
    (h5 : ∀ c, (search c).length ≤ 5) :
    ((corroborate_claims search claims required).1 = true
        ↔ 4 * claims.length
            ≤ 5 * claims.countP
                (fun c => decide (required ≤ (search c).countP (matchesClaim c))))
      ∧ (corroborate_claims search claims required).2.length
          = required * claims.countP
              (fun c => decide (required ≤ (search c).countP (matchesClaim c)))
      ∧ (claims.length = 5 →
          claims.countP
              (fun c => decide (required ≤ (search c).countP (matchesClaim c))) = 4 →
          (corroborate_claims search claims required).1 = true)
      ∧ (claims.length = 5 →
          claims.countP
              (fun c => decide (required ≤ (search c).countP (matchesClaim c))) = 3 →
          (corroborate_claims search claims required).1 = false) := by
  have hfold := corroborate_foldl_spec search required claims 0 []
  have hvp : claims.countP (claimVerified search required)
      = claims.countP
          (fun c => decide (required ≤ (search c).countP (matchesClaim c))) := rfl
  have h1 : (corroborate_claims search claims required).1
      = decide (4 * claims.length
          ≤ 5 * claims.countP
              (fun c => decide (required ≤ (search c).countP (matchesClaim c)))) := by
    unfold corroborate_claims
    rw [← hvp]
    simp only [hfold.1, Nat.zero_add]
  have h2 : (corroborate_claims search claims required).2.length
      = required * claims.countP
          (fun c => decide (required ≤ (search c).countP (matchesClaim c))) := by
    unfold corroborate_claims
    rw [← hvp]
    simpa using hfold.2
  refine ⟨?_, h2, ?_, ?_⟩
  · rw [h1]
    exact decide_eq_true_iff
  · intro hl hcount
    rw [h1, hl, hcount]
    decide
  · intro hl hcount
    rw [h1, hl, hcount]
    decide

/-- Witness for C1: five claims, four of which obtain 2 matching citations
with `required = 2`, give `accepted = true` and `2 * 4 = 8` citations. -/
theorem claim_C1_corroborate_witness :
    (["a".data, "b".data, "c".data, "d".data, "e".data] : List PyStr) ≠ []
      ∧ 1 ≤ 2
      ∧ (corroborate_claims exSearch
          ["a".data, "b".data, "c".data, "d".data, "e".data] 2).1 = true
      ∧ (corroborate_claims exSearch
          ["a".data, "b".data, "c".data, "d".data, "e".data] 2).2.length = 8 := by
  have h := claim_C1_corroborate exSearch
    ["a".data, "b".data, "c".data, "d".data, "e".data] 2
    (by decide) (by decide)
    (by
      intro c
      unfold exSearch
      split <;> simp)
  refine ⟨by decide, by decide, ?_, ?_⟩
  · exact h.2.2.1 (by decide) (by decide)
  · rw [h.2.1]
    decide

/-- C6.  Understanding-stage fallbacks: classification failure yields the
default labels `{doc_type: article, language: en, audience: general}`, NER
failure yields empty entity and edge lists, chunking failure yields the
single whole-text chunk, embedding failure yields an empty vector list,
and for every combination of sub-failures the enriched payload still
carries the document and is forwarded (the function is total and its
result is unconditionally sent to the editorial queue). -/
theorem claim_C6_understanding_fallbacks (text : PyStr)
    (oclassify : Option Labels) (oner : Option (List Entity × List Edge))
    (chunkFails : Bool) (oembed : Option (List (List Int))) :
    (oclassify = none →
        (classify_ner text oclassify oner chunkFails oembed).labels
          = ⟨"article".data, "en".data, "general".data⟩)
      ∧ (oner = none →
          (classify_ner text oclassify oner chunkFails oembed).entities = []
            ∧ (classify_ner text oclassify oner chunkFails oembed).edges = [])
      ∧ (chunkFails = true →
          (classify_ner text oclassify oner chunkFails oembed).chunks = [text])
      ∧ (oembed = none →
          (classify_ner text oclassify oner chunkFails oembed).vectors = [])
      ∧ (classify_ner text oclassify oner chunkFails oembed).text = text := by
  refine ⟨?_, ?_, ?_, ?_, rfl⟩
  · intro h; subst h; rfl
  · intro h; subst h; exact ⟨rfl, rfl⟩
  · intro h; subst h; simp [classify_ner]
  · intro h; subst h; rfl

/-- Witness for C6: with every sub-capability failing at once, the payload
carries all four fallback values and the document text. -/
theorem claim_C6_understanding_fallbacks_witness :
    (classify_ner "doc body".data none none true none).labels
        = ⟨"article".data, "en".data, "general".data⟩
      ∧ (classify_ner "doc body".data none none true none).entities = []
      ∧ (classify_ner "doc body".data none none true none).edges = []
      ∧ (classify_ner "doc body".data none none true none).chunks
          = ["doc body".data]
      ∧ (classify_ner "doc body".data none none true none).vectors = []
      ∧ (classify_ner "doc body".data none none true none).text = "doc body".data := by
  have h := claim_C6_understanding_fallbacks "doc body".data none none true none
  exact ⟨h.1 rfl, (h.2.1 rfl).1, (h.2.1 rfl).2, h.2.2.1 rfl, h.2.2.2.1 rfl, h.2.2.2.2⟩

/-- C7 (amended).  Summariser fallback: when the summariser raises, the
abstract is `text[:500] + "..."` only for documents longer than 500
characters; for shorter documents it is the untruncated source text with
no ellipsis; in both cases the payload is still produced and forwarded to
ingestion (the function is total and its result is unconditionally sent). -/
theorem claim_C7_summary_fallback (text : PyStr)
    (oclaims : Option (List PyStr)) (search : PyStr → List SearchResult)
    (corrRaises : Bool) :
    (summarize_and_qc text none oclaims search corrRaises).abstract
        = (if 500 < text.length then text.take 500 ++ "...".data else text)
      ∧ (summarize_and_qc text none oclaims search corrRaises).text = text := by
  exact ⟨rfl, rfl⟩

/-- Counterexample to C7 as stated: for the 5-character document
`"short"` whose summariser fails, the abstract is the bare text `"short"`,
not the claimed `text[:500] + "..."` (`"short..."`). -/
theorem claim_C7_counterexample :
    (summarize_and_qc "short".data none none (fun _ => []) false).abstract
        = "short".data
      ∧ (summarize_and_qc "short".data none none (fun _ => []) false).abstract
          ≠ ("short".data.take 500 ++ "...".data) := by
  constructor
  · rfl
  · decide

/-- C9.  Empty claims: `corroborate_claims` on `[]` returns
`accepted = true` (the comparison `0 >= 0 * 0.8` is vacuously satisfied)
with no citations and issues no evidence search; the editorial stage only
avoids this case because it skips corroboration when the (possibly
truncated) claim list is empty, so its output is independent of the search
collaborator and of corroboration failures in that case. -/
theorem claim_C9_empty_claims (search : PyStr → List SearchResult)
    (required : Nat) :
    corroborate_claims search [] required = (true, [])
      ∧ corroborate_search_count [] = 0
      ∧ ∀ (text : PyStr) (osummarize : Option PyStr)
          (s1 s2 : PyStr → List SearchResult) (r1 r2 : Bool),
          summarize_and_qc text osummarize (some []) s1 r1
            = summarize_and_qc text osummarize (some []) s2 r2 := by
  refine ⟨rfl, rfl, ?_⟩
  intro text osummarize s1 s2 r1 r2
  rfl

theorem resolveEdge_eq_none_iff (entities : List Entity) (e : Edge) :
    resolveEdge entities e = none ↔ resolvable entities e = false := by
  unfold resolveEdge resolvable
  rcases hs : entities.findIdx? (fun x => decide (x.name = e.source)) with _ | s
    <;> rcases ht : entities.findIdx? (fun x => decide (x.name = e.target)) with _ | t
  · have ha : entities.any (fun x => decide (x.name = e.source)) = false := by
      rw [← List.findIdx?_isSome, hs]; rfl
    simp [hs, ht, ha]
  · have ha : entities.any (fun x => decide (x.name = e.source)) = false := by
      rw [← List.findIdx?_isSome, hs]; rfl
    simp [hs, ht, ha]
  · have hb : entities.any (fun x => decide (x.name = e.target)) = false := by
      rw [← List.findIdx?_isSome, ht]; rfl
    simp [hs, ht, hb]
  · have ha : entities.any (fun x => decide (x.name = e.source)) = true := by
      rw [← List.findIdx?_isSome, hs]; rfl
    have hb : entities.any (fun x => decide (x.name = e.target)) = true := by
      rw [← List.findIdx?_isSome, ht]; rfl
    simp [hs, ht, ha, hb]

theorem resolveEdge_isSome_of_resolvable {entities : List Entity} {e : Edge}
    (h : resolvable entities e = true) :
    ∃ part, resolveEdge entities e = some part := by
  rcases hr : resolveEdge entities e with _ | part
  · rw [(resolveEdge_eq_none_iff entities e).mp hr] at h
    cases h
  · exact ⟨part, rfl⟩

theorem filterMap_resolveEdge_filter (entities : List Entity) :
    ∀ edges : List Edge,
      edges.filterMap (resolveEdge entities)
        = (edges.filter (resolvable entities)).filterMap (resolveEdge entities) := by
  intro edges
  induction edges with
  | nil => rfl
  | cons e rest ih =>
    cases hres : resolvable entities e
    · have hn : resolveEdge entities e = none :=
        (resolveEdge_eq_none_iff entities e).mpr hres
      rw [List.filterMap_cons_none hn, List.filter_cons_of_neg (by simp [hres]), ih]
    · obtain ⟨part, hp⟩ := resolveEdge_isSome_of_resolvable hres
      rw [List.filterMap_cons_some hp, List.filter_cons_of_pos hres,
        List.filterMap_cons_some hp, ih]

theorem filterMap_resolveEdge_length (entities : List Entity) :
    ∀ edges : List Edge,
      (edges.filterMap (resolveEdge entities)).length
        = edges.countP (resolvable entities) := by
  intro edges
  induction edges with
  | nil => rfl
  | cons e rest ih =>
    cases hres : resolvable entities e
    · have hn : resolveEdge entities e = none :=
        (resolveEdge_eq_none_iff entities e).mpr hres
      rw [List.filterMap_cons_none hn, List.countP_cons, ih, hres]
      simp
    · obtain ⟨part, hp⟩ := resolveEdge_isSome_of_resolvable hres
      rw [List.filterMap_cons_some hp, List.countP_cons, hres]
      simp [ih]

/-- C8.  Graph upsert: an edge whose source or target name resolves to no
entity contributes no statement to the write and raises no error — the
write equals the write of the resolvable edges alone — while every edge
with both endpoints resolving contributes exactly one relationship
statement (so the write holds one node statement per entity plus one
relationship statement per resolvable edge). -/
theorem claim_C8_graph_upsert (entities : List Entity) (edges : List Edge) :
    graph_upsert entities edges
        = graph_upsert entities (edges.filter (resolvable entities))
      ∧ (graph_upsert entities edges).length
          = entities.length + edges.countP (resolvable entities)
      ∧ ∀ e : Edge, resolveEdge entities e = none
          ↔ resolvable entities e = false := by
  refine ⟨?_, ?_, fun e => resolveEdge_eq_none_iff entities e⟩
  · unfold graph_upsert
    rw [filterMap_resolveEdge_filter]
  · unfold graph_upsert
    rw [List.length_append, List.length_map, List.enum_length,
      filterMap_resolveEdge_length]

theorem keepParams_eq_filter :
    ∀ ss : List PyStr,
      keepParams ss = ss.filter (fun s =>
        decide ('=' ∈ s)
          && decide (s.takeWhile (fun c => !(c = '=')) ∉ tracking_params)) := by
  intro ss
  induction ss with
  | nil => rfl
  | cons s rest ih =>
    by_cases h : '=' ∈ s ∧ s.takeWhile (fun c => !(c = '=')) ∉ tracking_params
    · rw [keepParams, if_pos h, ih,
        List.filter_cons_of_pos (by simp [h.1, h.2])]
    · rw [keepParams, if_neg h, ih,
        List.filter_cons_of_neg (by
          simp only [not_and_or] at h
          rcases h with h | h <;> simp [h])]

/-- C5 (amended).  `canonicalize_url` returns scheme + `://` + host +
path (params and fragment dropped) plus the query rebuilt from exactly
those `&`-segments that contain `=` and whose key (text before the first
`=`) is not in the 11-key denylist (`utm_source`, `utm_medium`,
`utm_campaign`, `utm_term`, `utm_content`, `fbclid`, `gclid`, `wt_mc`,
`wt_zmc`, `_ga`, `_gid`); segments without `=` are dropped as well, so
the remaining query is not always "otherwise unchanged", and `utm_`-keys
outside the five listed (for example `utm_id`) are kept.  In particular
`https://example.com/article?utm_source=x` canonicalizes to
`https://example.com/article`. -/
theorem claim_C5_canonicalize (url : PyStr) :
    canonicalize_url url
        = (urlparse url).scheme ++ "://".data ++ (urlparse url).netloc
            ++ (urlparse url).path
            ++ (match joinSep '&'
                  ((splitOnChar '&' (urlparse url).query).filter (fun s =>
                    decide ('=' ∈ s)
                      && decide (s.takeWhile (fun c => !(c = '='))
                          ∉ tracking_params))) with
                | [] => []
                | q => '?' :: q)
      ∧ canonicalize_url "https://example.com/article?utm_source=x".data
          = "https://example.com/article".data := by
  constructor
  · simp only [canonicalize_url, keepParams_eq_filter]
    by_cases hq : (urlparse url).query = []
    · rw [hq]
      congr 1
    · rw [if_pos hq]
      congr 1
      rcases hj : joinSep '&'
          ((splitOnChar '&' (urlparse url).query).filter (fun s =>
            decide ('=' ∈ s)
              && decide (s.takeWhile (fun c => !(c = '='))
                  ∉ tracking_params))) with _ | ⟨c, q⟩
      · simp
      · simp
  · decide

/-- Counterexample to C5 as stated: on
`https://example.com/article?flag&utm_source=x` the code drops the
valueless segment `flag` (and would keep a `utm_id=1` parameter), so the
result is `https://example.com/article`, not the
`https://example.com/article?flag` required by "strips exactly the
denylisted parameters and keeps the remaining query otherwise
unchanged". -/
theorem claim_C5_counterexample :
    canonicalize_url "https://example.com/article?flag&utm_source=x".data
        = "https://example.com/article".data
      ∧ canonicalize_url_claimed "https://example.com/article?flag&utm_source=x".data
          = "https://example.com/article?flag".data
      ∧ canonicalize_url "https://example.com/article?flag&utm_source=x".data
          ≠ canonicalize_url_claimed
              "https://example.com/article?flag&utm_source=x".data := by
  refine ⟨by decide, by decide, by decide⟩

theorem breakAtFirst_eq_none_iff (ch : Char) :
    ∀ l : PyStr, breakAtFirst ch l = none ↔ ch ∉ l := by
  intro l
  induction l with
  | nil => simp [breakAtFirst]
  | cons c rest ih =>
    rw [breakAtFirst]
    by_cases hc : c = ch
    · subst hc
      simp
    · rw [if_neg hc]
      rcases hb : breakAtFirst ch rest with _ | ⟨a, b⟩
    
      · simp only [List.mem_cons, not_or]
        constructor
        · intro _
          exact ⟨fun h => hc h.symm, ih.mp hb⟩
        · intro _
          trivial
      · simp only [List.mem_cons, not_or]
        constructor
        · intro h
          cases h
        · intro h
          exact absurd (ih.mpr h.2) (by simp [hb])

theorem breakAtFirst_append_of_not_mem (ch : Char) :
    ∀ (a : PyStr), ch ∉ a → ∀ b : PyStr,
      breakAtFirst ch (a ++ ch :: b) = some (a, b) := by
  intro a
  induction a with
  | nil =>
    intro _ b
    simp [breakAtFirst]
  | cons c rest ih =>
    intro h b
    have hc : ¬(c = ch) := fun hh => h (by simp [hh])
    have hr : ch ∉ rest := fun hh => h (List.mem_cons_of_mem _ hh)
    rw [List.cons_append, breakAtFirst, if_neg hc, ih hr b]

theorem breakAtFirst_eq_some (ch : Char) :
    ∀ (l a b : PyStr), breakAtFirst ch l = some (a, b) →
      l = a ++ ch :: b ∧ ch ∉ a := by
  intro l
  induction l with
  | nil => intro a b h; cases h
  | cons c rest ih =>
    intro a b h
    rw [breakAtFirst] at h
    by_cases hc : c = ch
    · rw [if_pos hc] at h
      cases h
      subst hc
      exact ⟨rfl, by simp⟩
    · rw [if_neg hc] at h
      rcases hb : breakAtFirst ch rest with _ | ⟨a2, b2⟩
      · rw [hb] at h
        cases h
      · rw [hb] at h
        cases h
        obtain ⟨h1, h2⟩ := ih _ _ hb
        constructor
        · rw [List.cons_append, ← h1]
        · simp only [List.mem_cons, not_or]
          exact ⟨fun hh => hc hh.symm, h2⟩

theorem splitOnChar_ne_nil (ch : Char) : ∀ l : PyStr, splitOnChar ch l ≠ [] := by
  intro l
  induction l with
  | nil => simp [splitOnChar]
  | cons c rest ih =>
    rw [splitOnChar]
    by_cases hc : c = ch
    · simp [hc]
    · rw [if_neg hc]
      rcases hs : splitOnChar ch rest with _ | ⟨s, ss⟩
      · simp
      · simp

theorem mem_splitOnChar_not_mem (ch : Char) :
    ∀ (l : PyStr) (s : PyStr), s ∈ splitOnChar ch l → ch ∉ s := by
  intro l
  induction l with
  | nil =>
    intro s hs
    simp [splitOnChar] at hs
    simp [hs]
  | cons c rest ih =>
    intro s hs
    rw [splitOnChar] at hs
    by_cases hc : c = ch
    · rw [if_pos hc] at hs
      rcases List.mem_cons.mp hs with h | h
      · simp [h]
      · exact ih s h
    · rw [if_neg hc] at hs
      rcases hsp : splitOnChar ch rest with _ | ⟨t, ts⟩
      · exact absurd hsp (splitOnChar_ne_nil ch rest)
      · rw [hsp] at hs
        rcases List.mem_cons.mp hs with h | h
        · subst h
          intro hmem
          rcases List.mem_cons.mp hmem with h | h
          · exact hc h.symm
          · exact ih t (by rw [hsp]; exact List.mem_cons_self _ _) h
        · exact ih s (by rw [hsp]; exact List.mem_cons_of_mem _ h)

theorem joinSep_splitOnChar (ch : Char) :
    ∀ l : PyStr, joinSep ch (splitOnChar ch l) = l := by
  intro l
  induction l with
  | nil => rfl
  | cons c rest ih =>
    rw [splitOnChar]
    by_cases hc : c = ch
    · rw [if_pos hc]
      rcases hsp : splitOnChar ch rest with _ | ⟨t, ts⟩
      · exact absurd hsp (splitOnChar_ne_nil ch rest)
      · have hj : joinSep ch ([] :: t :: ts) = ch :: joinSep ch (t :: ts) := rfl
        rw [hj, ← hsp, ih, hc]
    · rw [if_neg hc]
      rcases hsp : splitOnChar ch rest with _ | ⟨t, ts⟩
      · exact absurd hsp (splitOnChar_ne_nil ch rest)
      · have hj : joinSep ch ((c :: t) :: ts) = c :: joinSep ch (t :: ts) := by
          rcases ts with _ | ⟨u, us⟩
          · rfl
          · rfl
        rw [hj, ← hsp, ih]

theorem splitOnChar_of_not_mem (ch : Char) :
    ∀ s : PyStr, ch ∉ s → splitOnChar ch s = [s] := by
  intro s
  induction s with
  | nil => intro _; rfl
  | cons c rest ih =>
    intro h
    have hc : ¬(c = ch) := fun hh => h (by simp [hh])
    have hr : ch ∉ rest := fun hh => h (List.mem_cons_of_mem _ hh)
    rw [splitOnChar, if_neg hc, ih hr]

theorem splitOnChar_append_sep (ch : Char) :
    ∀ (s t : PyStr), ch ∉ s →
      splitOnChar ch (s ++ ch :: t) = s :: splitOnChar ch t := by
  intro s
  induction s with
  | nil =>
    intro t _
    rw [List.nil_append, splitOnChar, if_pos rfl]
  | cons c rest ih =>
    intro t h
    have hc : ¬(c = ch) := fun hh => h (by simp [hh])
    have hr : ch ∉ rest := fun hh => h (List.mem_cons_of_mem _ hh)
    rw [List.cons_append, splitOnChar, if_neg hc, ih t hr]

theorem splitOnChar_joinSep (ch : Char) :
    ∀ ss : List PyStr, ss ≠ [] → (∀ s ∈ ss, ch ∉ s) →
      splitOnChar ch (joinSep ch ss) = ss := by
  intro ss
  induction ss with
  | nil => intro h _; exact absurd rfl h
  | cons s rest ih =>
    intro _ hfree
    rcases rest with _ | ⟨t, ts⟩
    · show splitOnChar ch (joinSep ch [s]) = [s]
      exact splitOnChar_of_not_mem ch s (hfree s (List.mem_cons_self _ _))
    · have hj : joinSep ch (s :: t :: ts) = s ++ ch :: joinSep ch (t :: ts) := rfl
      rw [hj, splitOnChar_append_sep ch s _ (hfree s (List.mem_cons_self _ _)),
        ih (by simp) (fun x hx => hfree x (List.mem_cons_of_mem _ hx))]

theorem mem_joinSep_chars (ch : Char) :
    ∀ (ss : List PyStr) (c : Char), c ∈ joinSep ch ss →
      c = ch ∨ ∃ s ∈ ss, c ∈ s := by
  intro ss
  induction ss with
  | nil => intro c hc; cases hc
  | cons s rest ih =>
    intro c hc
    rcases rest with _ | ⟨t, ts⟩
    · right
      exact ⟨s, List.mem_cons_self _ _, hc⟩
    · have hj : joinSep ch (s :: t :: ts) = s ++ ch :: joinSep ch (t :: ts) := rfl
      rw [hj] at hc
      rcases List.mem_append.mp hc with h | h
      · right
        exact ⟨s, List.mem_cons_self _ _, h⟩
      · rcases List.mem_cons.mp h with h | h
        · left; exact h
        · rcases ih c h with h | ⟨u, hu, hcu⟩
          · left; exact h
          · right; exact ⟨u, List.mem_cons_of_mem _ hu, hcu⟩

theorem mem_keepParams_sound :
    ∀ (ss : List PyStr) (s : PyStr), s ∈ keepParams ss →
      s ∈ ss ∧ '=' ∈ s
        ∧ s.takeWhile (fun c => !(c = '=')) ∉ tracking_params := by
  intro ss s hs
  rw [keepParams_eq_filter] at hs
  obtain ⟨h1, h2⟩ := List.mem_filter.mp hs
  simp only [Bool.and_eq_true, decide_eq_true_eq] at h2
  exact ⟨h1, h2.1, h2.2⟩

theorem keepParams_of_all :
    ∀ ss : List PyStr,
      (∀ s ∈ ss, '=' ∈ s
        ∧ s.takeWhile (fun c => !(c = '=')) ∉ tracking_params) →
      keepParams ss = ss := by
  intro ss h
  rw [keepParams_eq_filter]
  apply List.filter_eq_self.mpr
  intro s hs
  simp only [Bool.and_eq_true, decide_eq_true_eq]
  exact ⟨(h s hs).1, (h s hs).2⟩

theorem joinSep_ne_nil_of_ne {ch : Char} :
    ∀ ss : List PyStr, ss ≠ [] → (∀ s ∈ ss, s ≠ []) →
      joinSep ch ss ≠ [] := by
  intro ss
  induction ss with
  | nil => intro h _; exact absurd rfl h
  | cons s rest _ =>
    intro _ hne
    rcases rest with _ | ⟨t, ts⟩
    · exact hne s (List.mem_cons_self _ _)
    · have hj : joinSep ch (s :: t :: ts) = s ++ ch :: joinSep ch (t :: ts) := rfl
      rw [hj]
      rcases hs : s with _ | ⟨c, cs⟩
      · exact absurd rfl (hs ▸ hne s (List.mem_cons_self _ _))
      · simp

theorem char_toNat_ofNat_valid (n : Nat) (h : n.isValidChar) :
    (Char.ofNat n).toNat = n := by
  rw [Char.ofNat, dif_pos h]
  simp [Char.ofNatAux, Char.toNat, UInt32.toNat]

theorem char_toLower_toNat (c : Char) :
    (Char.toLower c).toNat
      = if 65 ≤ c.toNat ∧ c.toNat ≤ 90 then c.toNat + 32 else c.toNat := by
  unfold Char.toLower
  split
  · rename_i h
    rw [if_pos ⟨h.1, h.2⟩]
    apply char_toNat_ofNat_valid
    left
    have h90 : c.toNat ≤ 90 := h.2
    change c.toNat + 32 < 55296
    omega
  · rename_i h
    rw [if_neg]
    intro hc
    exact h ⟨hc.1, hc.2⟩

theorem char_toNat_inj {a b : Char} (h : a.toNat = b.toNat) : a = b := by
  have ha := Char.ofNat_toNat a
  rw [h, Char.ofNat_toNat] at ha
  exact ha.symm

theorem char_toLower_idem (c : Char) :
    (Char.toLower c).toLower = Char.toLower c := by
  apply char_toNat_inj
  have h1 := char_toLower_toNat c
  have h2 := char_toLower_toNat (Char.toLower c)
  rw [h2]
  split
  · rename_i hh
    rw [h1] at hh
    split at hh <;> omega
  · rfl

theorem char_isAlpha_toNat_iff (c : Char) :
    c.isAlpha = true
      ↔ (65 ≤ c.toNat ∧ c.toNat ≤ 90) ∨ (97 ≤ c.toNat ∧ c.toNat ≤ 122) := by
  simp only [Char.isAlpha, Char.isUpper, Char.isLower, Bool.or_eq_true,
    Bool.and_eq_true, decide_eq_true_eq]
  constructor
  · rintro (⟨h1, h2⟩ | ⟨h1, h2⟩)
    · left; exact ⟨h1, h2⟩
    · right; exact ⟨h1, h2⟩
  · rintro (⟨h1, h2⟩ | ⟨h1, h2⟩)
    · left; exact ⟨h1, h2⟩
    · right; exact ⟨h1, h2⟩

theorem char_isAlphanum_toNat_iff (c : Char) :
    c.isAlphanum = true
      ↔ (65 ≤ c.toNat ∧ c.toNat ≤ 90) ∨ (97 ≤ c.toNat ∧ c.toNat ≤ 122)
        ∨ (48 ≤ c.toNat ∧ c.toNat ≤ 57) := by
  simp only [Char.isAlphanum, Bool.or_eq_true, char_isAlpha_toNat_iff,
    Char.isDigit, Bool.and_eq_true, decide_eq_true_eq]
  constructor
  · rintro ((h | h) | ⟨h1, h2⟩)
    · exact Or.inl h
    · exact Or.inr (Or.inl h)
    · exact Or.inr (Or.inr ⟨h1, h2⟩)
  · rintro (h | h | ⟨h1, h2⟩)
    · exact Or.inl (Or.inl h)
    · exact Or.inl (Or.inr h)
    · exact Or.inr ⟨h1, h2⟩

theorem char_eq_iff_toNat (c : Char) (d : Char) : c = d ↔ c.toNat = d.toNat :=
  ⟨fun h => h ▸ rfl, char_toNat_inj⟩

theorem char_toLower_isAlpha {c : Char} (h : c.isAlpha = true) :
    (Char.toLower c).isAlpha = true := by
  rw [char_isAlpha_toNat_iff] at h ⊢
  rw [char_toLower_toNat]
  rcases h with ⟨h1, h2⟩ | ⟨h1, h2⟩
  · rw [if_pos ⟨h1, h2⟩]
    right; omega
  · rw [if_neg (by omega)]
    right; exact ⟨h1, h2⟩

theorem char_toLower_isSchemeChar {c : Char} (h : isSchemeChar c = true) :
    isSchemeChar (Char.toLower c) = true := by
  unfold isSchemeChar at h ⊢
  simp only [Bool.or_eq_true, decide_eq_true_eq] at h ⊢
  rcases h with ((h | h) | h) | h
  · refine Or.inl (Or.inl (Or.inl ?_))
    rw [char_isAlphanum_toNat_iff] at h ⊢
    rw [char_toLower_toNat]
    rcases h with ⟨h1, h2⟩ | ⟨h1, h2⟩ | ⟨h1, h2⟩
    · rw [if_pos ⟨h1, h2⟩]; right; left; omega
    · rw [if_neg (by omega)]; right; left; exact ⟨h1, h2⟩
    · rw [if_neg (by omega)]; right; right; exact ⟨h1, h2⟩
  · refine Or.inl (Or.inl (Or.inr ?_))
    subst h
    rfl
  · refine Or.inl (Or.inr ?_)
    subst h
    rfl
  · refine Or.inr ?_
    subst h
    rfl

theorem map_toLower_idem (l : PyStr) :
    (l.map Char.toLower).map Char.toLower = l.map Char.toLower := by
  induction l with
  | nil => rfl
  | cons c rest ih =>
    simp only [List.map_cons, char_toLower_idem, ih]

/-- Parsing a URL reassembled as `scheme://netloc path [?query]` (with a
valid, lowercase scheme, a netloc free of `/?#`, a path free of `?#`
starting with `/` when non-empty, and a query free of `#`) recovers
exactly those components. -/
theorem urlsplit_reconstruct (hd : Char) (tl netloc path query : PyStr)
    (hda : hd.isAlpha = true)
    (hsc : ∀ c ∈ hd :: tl, isSchemeChar c = true)
    (hlower : (hd :: tl).map Char.toLower = hd :: tl)
    (hnl : ∀ c ∈ netloc, notNetlocEnd c = true)
    (hpq : ∀ c ∈ path, ¬(c = '?'))
    (hph : ∀ c ∈ path, ¬(c = '#'))
    (hphead : path = [] ∨ ∃ t, path = '/' :: t)
    (hq : ∀ c ∈ query, ¬(c = '#')) :
    urlsplit ((hd :: tl) ++ "://".data ++ netloc ++ path
        ++ (if query ≠ [] then '?' :: query else []))
      = ⟨hd :: tl, netloc, path, [], query, []⟩ := by
  have hcolon : ':' ∉ hd :: tl := by
    intro hmem
    have hbad := hsc ':' hmem
    simp [isSchemeChar] at hbad
  have hall : (hd :: tl).all isSchemeChar = true := List.all_eq_true.mpr hsc
  by_cases hqe : query = []
  · subst hqe
    simp only [ne_eq, not_true_eq_false, if_false]
    have hshape : (hd :: tl) ++ "://".data ++ netloc ++ path ++ ([] : PyStr)
        = (hd :: tl) ++ ':' :: ('/' :: '/' :: (netloc ++ path)) := by
      simp only [List.append_assoc, List.append_nil]
      rfl
    rw [hshape]
    have e1 : breakAtFirst ':'
        ((hd :: tl) ++ ':' :: ('/' :: '/' :: (netloc ++ path)))
        = some (hd :: tl, '/' :: '/' :: (netloc ++ path)) :=
      breakAtFirst_append_of_not_mem ':' (hd :: tl) hcolon _
    have e2 : (netloc ++ path).takeWhile notNetlocEnd = netloc := by
      rw [List.takeWhile_append_of_pos hnl]
      rcases hphead with hp | ⟨t, hp⟩
      · subst hp; simp
      · subst hp
        rw [List.takeWhile_cons_of_neg (by decide)]
        simp
    have e3 : (netloc ++ path).dropWhile notNetlocEnd = path := by
      rw [List.dropWhile_append_of_pos hnl]
      rcases hphead with hp | ⟨t, hp⟩
      · subst hp; rfl
      · subst hp
        rw [List.dropWhile_cons_of_neg (by decide)]
    have e4 : breakAtFirst '#' path = none := by
      rw [breakAtFirst_eq_none_iff]
      intro hmem
      exact hph '#' hmem rfl
    have e5 : breakAtFirst '?' path = none := by
      rw [breakAtFirst_eq_none_iff]
      intro hmem
      exact hpq '?' hmem rfl
    simp only [urlsplit, e1, hda, hall, Bool.and_self, and_self, if_true,
      hlower, e2, e3, e4, e5]
  · have hshape : (hd :: tl) ++ "://".data ++ netloc ++ path
        ++ (if query ≠ [] then '?' :: query else [])
        = (hd :: tl) ++ ':' :: ('/' :: '/'
            :: (netloc ++ (path ++ '?' :: query))) := by
      rw [if_pos hqe]
      simp only [List.append_assoc]
      rfl
    rw [hshape]
    have e1 : breakAtFirst ':'
        ((hd :: tl) ++ ':' :: ('/' :: '/' :: (netloc ++ (path ++ '?' :: query))))
        = some (hd :: tl, '/' :: '/' :: (netloc ++ (path ++ '?' :: query))) :=
      breakAtFirst_append_of_not_mem ':' (hd :: tl) hcolon _
    have e2 : (netloc ++ (path ++ '?' :: query)).takeWhile notNetlocEnd
        = netloc := by
      rw [List.takeWhile_append_of_pos hnl]
      rcases hphead with hp | ⟨t, hp⟩
      · subst hp
        rw [List.nil_append, List.takeWhile_cons_of_neg (by decide)]
        simp
      · subst hp
        rw [List.cons_append, List.takeWhile_cons_of_neg (by decide)]
        simp
    have e3 : (netloc ++ (path ++ '?' :: query)).dropWhile notNetlocEnd
        = path ++ '?' :: query := by
      rw [List.dropWhile_append_of_pos hnl]
      rcases hphead with hp | ⟨t, hp⟩
      · subst hp
        rw [List.nil_append, List.dropWhile_cons_of_neg (by decide)]
      · subst hp
        rw [List.cons_append, List.dropWhile_cons_of_neg (by decide)]
    have e4 : breakAtFirst '#' (path ++ '?' :: query) = none := by
      rw [breakAtFirst_eq_none_iff]
      intro hmem
      rcases List.mem_append.mp hmem with h | h
      · exact hph '#' h rfl
      · rcases List.mem_cons.mp h with h | h
        · cases h
        · exact hq '#' h rfl
    have e5 : breakAtFirst '?' (path ++ '?' :: query) = some (path, query) :=
      breakAtFirst_append_of_not_mem '?' path
        (fun hmem => hpq '?' hmem rfl) query
    simp only [urlsplit, e1, hda, hall, Bool.and_self, and_self, if_true,
      hlower, e2, e3, e4, e5]

theorem mem_joinSep_of_mem (ch : Char) :
    ∀ (ss : List PyStr) (s : PyStr) (c : Char),
      s ∈ ss → c ∈ s → c ∈ joinSep ch ss := by
  intro ss
  induction ss with
  | nil => intro s c hs _; cases hs
  | cons t rest ih =>
    intro s c hs hc
    rcases rest with _ | ⟨u, us⟩
    · rcases List.mem_cons.mp hs with h | h
      · subst h; exact hc
      · cases h
    · have hj : joinSep ch (t :: u :: us) = t ++ ch :: joinSep ch (u :: us) := rfl
      rw [hj]
      rcases List.mem_cons.mp hs with h | h
      · subst h
        exact List.mem_append_left _ hc
      · exact List.mem_append_right _ (List.mem_cons_of_mem _ (ih s c h hc))

theorem splitparams_fst_append (path : PyStr) :
    ∃ r, (splitparams path).1 ++ r = path := by
  by_cases hsl : '/' ∈ path
  · rcases hb : breakAtFirst '/' path.reverse with _ | ⟨ra, rb⟩
    · have hval : splitparams path = (path, []) := by
        unfold splitparams
        simp only [if_pos hsl, hb]
      rw [hval]
      exact ⟨[], by simp⟩
    · obtain ⟨hdec, hnot⟩ := breakAtFirst_eq_some '/' path.reverse ra rb hb
      rcases hb2 : breakAtFirst ';' ra.reverse with _ | ⟨p1, p2⟩
      · have hval : splitparams path = (path, []) := by
          unfold splitparams
          simp only [if_pos hsl, hb, hb2]
        rw [hval]
        exact ⟨[], by simp⟩
      · have hval : splitparams path = (rb.reverse ++ '/' :: p1, p2) := by
          unfold splitparams
          simp only [if_pos hsl, hb, hb2]
        obtain ⟨hdec2, hnot2⟩ := breakAtFirst_eq_some ';' ra.reverse p1 p2 hb2
        rw [hval]
        refine ⟨';' :: p2, ?_⟩
        have hpath : path = rb.reverse ++ '/' :: ra.reverse := by
          have hh := congrArg List.reverse hdec
          rw [List.reverse_reverse] at hh
          rw [hh]
          simp
        show rb.reverse ++ '/' :: p1 ++ ';' :: p2 = path
        rw [hpath, hdec2]
        simp
  · rcases hb : breakAtFirst ';' path with _ | ⟨p1, p2⟩
    · have hval : splitparams path = (path, []) := by
        unfold splitparams
        simp only [if_neg hsl, hb]
      rw [hval]
      exact ⟨[], by simp⟩
    · have hval : splitparams path = (p1, p2) := by
        unfold splitparams
        simp only [if_neg hsl, hb]
      obtain ⟨hdec, hnot⟩ := breakAtFirst_eq_some ';' path p1 p2 hb
      rw [hval]
      exact ⟨';' :: p2, hdec.symm⟩

/-- The path left by `_splitparams` is clean: either it ends, after its
last `/`, in a segment free of `/` and `;`, or it contains neither `/`
nor `;`. -/
theorem splitparams_fst_spec (path : PyStr) :
    (∃ a b, (splitparams path).1 = a ++ '/' :: b ∧ '/' ∉ b ∧ ';' ∉ b)
      ∨ ('/' ∉ (splitparams path).1 ∧ ';' ∉ (splitparams path).1) := by
  by_cases hsl : '/' ∈ path
  · rcases hb : breakAtFirst '/' path.reverse with _ | ⟨ra, rb⟩
    · exact absurd ((breakAtFirst_eq_none_iff '/' path.reverse).mp hb)
        (by simpa using hsl)
    · obtain ⟨hdec, hnot⟩ := breakAtFirst_eq_some '/' path.reverse ra rb hb
      have hpath : path = rb.reverse ++ '/' :: ra.reverse := by
        have hh := congrArg List.reverse hdec
        rw [List.reverse_reverse] at hh
        rw [hh]
        simp
      have hnra : '/' ∉ ra.reverse := by simpa using hnot
      rcases hb2 : breakAtFirst ';' ra.reverse with _ | ⟨p1, p2⟩
      · have hval : splitparams path = (path, []) := by
          unfold splitparams
          simp only [if_pos hsl, hb, hb2]
        rw [hval]
        exact Or.inl ⟨rb.reverse, ra.reverse, hpath, hnra,
          (breakAtFirst_eq_none_iff ';' ra.reverse).mp hb2⟩
      · have hval : splitparams path = (rb.reverse ++ '/' :: p1, p2) := by
          unfold splitparams
          simp only [if_pos hsl, hb, hb2]
        obtain ⟨hdec2, hnot2⟩ := breakAtFirst_eq_some ';' ra.reverse p1 p2 hb2
        rw [hval]
        left
        refine ⟨rb.reverse, p1, rfl, ?_, hnot2⟩
        intro hmem
        exact hnra (by rw [hdec2]; exact List.mem_append_left _ hmem)
  · rcases hb : breakAtFirst ';' path with _ | ⟨p1, p2⟩
    · have hval : splitparams path = (path, []) := by
        unfold splitparams
        simp only [if_neg hsl, hb]
      rw [hval]
      exact Or.inr ⟨hsl, (breakAtFirst_eq_none_iff ';' path).mp hb⟩
    · have hval : splitparams path = (p1, p2) := by
        unfold splitparams
        simp only [if_neg hsl, hb]
      obtain ⟨hdec, hnot⟩ := breakAtFirst_eq_some ';' path p1 p2 hb
      rw [hval]
      right
      refine ⟨?_, hnot⟩
      intro hmem
      exact hsl (by rw [hdec]; exact List.mem_append_left _ hmem)

/-- `_splitparams` does not change a clean path. -/
theorem splitparams_of_clean (x : PyStr)
    (h : (∃ a b, x = a ++ '/' :: b ∧ '/' ∉ b ∧ ';' ∉ b)
        ∨ ('/' ∉ x ∧ ';' ∉ x)) :
    splitparams x = (x, []) := by
  rcases h with ⟨a, b, hx, hb1, hb2⟩ | ⟨h1, h2⟩
  · have hsl : '/' ∈ x := by rw [hx]; simp
    have hrev : x.reverse = b.reverse ++ '/' :: a.reverse := by
      rw [hx]
      simp
    have hbb : breakAtFirst '/' x.reverse = some (b.reverse, a.reverse) := by
      rw [hrev]
      exact breakAtFirst_append_of_not_mem '/' b.reverse
        (by simpa using hb1) a.reverse
    have hbn : breakAtFirst ';' b.reverse.reverse = none := by
      rw [List.reverse_reverse]
      exact (breakAtFirst_eq_none_iff ';' b).mpr hb2
    unfold splitparams
    simp only [if_pos hsl, hbb, hbn]
  · unfold splitparams
    simp only [if_neg h1, (breakAtFirst_eq_none_iff ';' x).mpr h2]

theorem splitparams_fst_idem (path : PyStr) :
    splitparams (splitparams path).1 = ((splitparams path).1, []) :=
  splitparams_of_clean _ (splitparams_fst_spec path)

theorem urlsplit_eq_stages (url : PyStr) :
    urlsplit url
      = ⟨(schemeSplit url).1, (netlocSplit (schemeSplit url).2).1,
          (querySplit (fragSplit (netlocSplit (schemeSplit url).2).2).1).1, [],
          (querySplit (fragSplit (netlocSplit (schemeSplit url).2).2).1).2,
          (fragSplit (netlocSplit (schemeSplit url).2).2).2⟩ := rfl

theorem schemeSplit_props (url : PyStr) :
    (schemeSplit url).1 ≠ [] →
      (∃ hd tl, (schemeSplit url).1 = hd :: tl ∧ hd.isAlpha = true)
        ∧ (∀ c ∈ (schemeSplit url).1, isSchemeChar c = true)
        ∧ ((schemeSplit url).1.map Char.toLower = (schemeSplit url).1) := by
  intro hne
  rcases hb : breakAtFirst ':' url with _ | ⟨pre, post⟩
  · exact absurd (by unfold schemeSplit; rw [hb]) hne
  · rcases hpre : pre with _ | ⟨c, tl0⟩
    · exact absurd (by unfold schemeSplit; rw [hb, hpre]) hne
    · by_cases hcond : c.isAlpha && (c :: tl0).all isSchemeChar
      · have hval : schemeSplit url = ((c :: tl0).map Char.toLower, post) := by
          unfold schemeSplit
          rw [hb, hpre]
          simp only [hcond, if_true]
        rw [hval]
        simp only [Bool.and_eq_true, List.all_eq_true] at hcond
        refine ⟨⟨Char.toLower c, tl0.map Char.toLower, by simp,
          char_toLower_isAlpha hcond.1⟩, ?_, map_toLower_idem _⟩
        intro x hx
        rw [List.mem_map] at hx
        obtain ⟨y, hy, hxy⟩ := hx
        rw [← hxy]
        exact char_toLower_isSchemeChar (hcond.2 y hy)
      · have hcond2 : (c.isAlpha && (c :: tl0).all isSchemeChar) = false :=
          Bool.eq_false_iff.mpr hcond
        have hval : schemeSplit url = ([], url) := by
          unfold schemeSplit
          rw [hb, hpre]
          simp only [hcond2, Bool.false_eq_true, if_false]
        exact absurd (by rw [hval]) hne

theorem netlocSplit_netloc_props (rest : PyStr) :
    (∀ c ∈ (netlocSplit rest).1, notNetlocEnd c = true)
      ∧ ((netlocSplit rest).1 ≠ [] →
          (netlocSplit rest).2 = []
            ∨ ∃ h2 t2, (netlocSplit rest).2 = h2 :: t2
                ∧ notNetlocEnd h2 = false) := by
  rcases rest with _ | ⟨c1, rest1⟩
  · exact ⟨fun c hc => absurd hc (by simp [netlocSplit]), fun h => absurd rfl h⟩
  · rcases rest1 with _ | ⟨c2, r2⟩
    · refine ⟨fun c hc => absurd hc ?_, fun h => absurd ?_ h⟩
      · show c ∉ (netlocSplit [c1]).1
        unfold netlocSplit
        rcases hc1 : c1 with _ | _ <;> simp
      · show (netlocSplit [c1]).1 = []
        unfold netlocSplit
        rfl
    · by_cases hs : c1 = '/' ∧ c2 = '/'
      · obtain ⟨h1, h2⟩ := hs
        subst h1
        subst h2
        have hval : netlocSplit ('/' :: '/' :: r2)
            = (r2.takeWhile notNetlocEnd, r2.dropWhile notNetlocEnd) := by
          simp [netlocSplit]
        rw [hval]
        constructor
        · intro c hc
          exact List.mem_takeWhile_imp hc
        · intro _
          rcases hd : r2.dropWhile notNetlocEnd with _ | ⟨h2, t2⟩
          · exact Or.inl rfl
          · right
            refine ⟨h2, t2, rfl, ?_⟩
            have := List.head?_dropWhile_not notNetlocEnd r2
            rw [hd] at this
            simpa using this
      · have hval : netlocSplit (c1 :: c2 :: r2) = ([], c1 :: c2 :: r2) := by
          simp only [netlocSplit]
          rw [if_neg hs]
        rw [hval]
        exact ⟨fun c hc => absurd hc (by simp), fun h => absurd rfl h⟩

theorem fragSplit_props (l : PyStr) :
    (∃ r, (fragSplit l).1 ++ r = l) ∧ '#' ∉ (fragSplit l).1
      ∧ (∀ c ∈ (fragSplit l).2, c ∈ l) := by
  rcases hb : breakAtFirst '#' l with _ | ⟨a, b⟩
  · have hval : fragSplit l = (l, []) := by
      unfold fragSplit
      rw [hb]
    rw [hval]
    exact ⟨⟨[], by simp⟩, (breakAtFirst_eq_none_iff '#' l).mp hb,
      fun c hc => absurd hc (by simp)⟩
  · have hval : fragSplit l = (a, b) := by
      unfold fragSplit
      rw [hb]
    obtain ⟨hdec, hnot⟩ := breakAtFirst_eq_some '#' l a b hb
    rw [hval]
    refine ⟨⟨'#' :: b, hdec.symm⟩, hnot, ?_⟩
    intro c hc
    rw [hdec]
    exact List.mem_append_right _ (List.mem_cons_of_mem _ hc)

theorem querySplit_props (l : PyStr) :
    (∃ r, (querySplit l).1 ++ r = l) ∧ '?' ∉ (querySplit l).1
      ∧ (∀ c ∈ (querySplit l).2, c ∈ l) := by
  rcases hb : breakAtFirst '?' l with _ | ⟨a, b⟩
  · have hval : querySplit l = (l, []) := by
      unfold querySplit
      rw [hb]
    rw [hval]
    exact ⟨⟨[], by simp⟩, (breakAtFirst_eq_none_iff '?' l).mp hb,
      fun c hc => absurd hc (by simp)⟩
  · have hval : querySplit l = (a, b) := by
      unfold querySplit
      rw [hb]
    obtain ⟨hdec, hnot⟩ := breakAtFirst_eq_some '?' l a b hb
    rw [hval]
    refine ⟨⟨'?' :: b, hdec.symm⟩, hnot, ?_⟩
    intro c hc
    rw [hdec]
    exact List.mem_append_right _ (List.mem_cons_of_mem _ hc)

theorem mem_of_append_eq {x r y : PyStr} (h : x ++ r = y) {c : Char}
    (hc : c ∈ x) : c ∈ y := by
  rw [← h]
  exact List.mem_append_left _ hc

theorem head_of_append_eq {x r y : PyStr} (h : x ++ r = y) (hx : x ≠ []) :
    y.head? = x.head? := by
  rcases x with _ | ⟨c, cs⟩
  · exact absurd rfl hx
  · rw [← h]
    rfl

/-- The components delivered by `urlsplit` on an arbitrary URL have the
shape needed to reassemble and re-parse them. -/
theorem urlsplit_props (url : PyStr) :
    ((urlsplit url).scheme ≠ [] →
        (∃ hd tl, (urlsplit url).scheme = hd :: tl ∧ hd.isAlpha = true)
          ∧ (∀ c ∈ (urlsplit url).scheme, isSchemeChar c = true)
          ∧ ((urlsplit url).scheme.map Char.toLower = (urlsplit url).scheme))
      ∧ (∀ c ∈ (urlsplit url).netloc, notNetlocEnd c = true)
      ∧ (∀ c ∈ (urlsplit url).path, ¬(c = '?'))
      ∧ (∀ c ∈ (urlsplit url).path, ¬(c = '#'))
      ∧ ((urlsplit url).netloc ≠ [] →
          (urlsplit url).path = [] ∨ ∃ t, (urlsplit url).path = '/' :: t)
      ∧ (∀ c ∈ (urlsplit url).query, ¬(c = '#')) := by
  rw [urlsplit_eq_stages]
  obtain ⟨hfpre, hfhash, hfmem⟩ :=
    fragSplit_props (netlocSplit (schemeSplit url).2).2
  obtain ⟨hqpre, hqmark, hqmem⟩ :=
    querySplit_props (fragSplit (netlocSplit (schemeSplit url).2).2).1
  obtain ⟨hnlall, hnlhead⟩ := netlocSplit_netloc_props (schemeSplit url).2
  refine ⟨?_, hnlall, ?_, ?_, ?_, ?_⟩
  · intro hne
    obtain ⟨hshape, hall, hidem⟩ := schemeSplit_props url hne
    exact ⟨hshape, hall, hidem⟩
  · intro c hc hcq
    subst hcq
    obtain ⟨r, hr⟩ := hqpre
    exact hqmark (by exact hc)
  · intro c hc hch
    subst hch
    exact hfhash (mem_of_append_eq hqpre.choose_spec hc)
  · intro hnl
    rcases hqp : (querySplit
        (fragSplit (netlocSplit (schemeSplit url).2).2).1).1 with _ | ⟨p0, pt⟩
    · exact Or.inl rfl
    · right
      rcases hnlhead hnl with hrest | ⟨h2, t2, hrest, hfail⟩
      · obtain ⟨r1, hr1⟩ := hfpre
        obtain ⟨r2, hr2⟩ := hqpre
        rw [hqp] at hr2
        have := mem_of_append_eq hr1 (mem_of_append_eq hr2 (List.mem_cons_self p0 pt))
        rw [hrest] at this
        cases this
      · obtain ⟨r2, hr2⟩ := hqpre
        rw [hqp] at hr2
        have hh1 : (fragSplit (netlocSplit (schemeSplit url).2).2).1.head?
            = some p0 := by
          rw [head_of_append_eq hr2 (by simp)]
          rfl
        obtain ⟨r1, hr1⟩ := hfpre
        have hh2 : (netlocSplit (schemeSplit url).2).2.head? = some p0 := by
          rw [head_of_append_eq hr1 ?hne2]
          · exact hh1
          · intro hnil
            rw [hnil] at hh1
            cases hh1
        rw [hrest] at hh2
        have hp0 : p0 = h2 := by
          injection hh2 with hh2
          exact hh2.symm
        subst hp0
        have hq0 : ¬(p0 = '?') := by
          intro hcq
          subst hcq
          rw [hqp] at hqmark
          exact hqmark (List.mem_cons_self _ _)
        have hh0 : ¬(p0 = '#') := by
          intro hch
          subst hch
          apply hfhash
          exact mem_of_append_eq hr2 (List.mem_cons_self _ _)
        have hp0or : p0 = '/' ∨ p0 = '?' ∨ p0 = '#' := by
          unfold notNetlocEnd at hfail
          simp at hfail
          tauto
        have hslash : p0 = '/' := by
          rcases hp0or with h | h | h
          · exact h
          · exact absurd h hq0
          · exact absurd h hh0
        refine ⟨pt, ?_⟩
        show p0 :: pt = '/' :: pt
        rw [hslash]
  · intro c hc hch
    subst hch
    exact hfhash (hqmem '#' hc)

/-- `urlparse` version of the reconstruction lemma: with the extra
guarantee that re-splitting the params of the path changes nothing, the
full parse of the reassembled URL recovers the components with empty
params and fragment. -/
theorem urlparse_reconstruct (hd : Char) (tl netloc path query : PyStr)
    (hda : hd.isAlpha = true)
    (hsc : ∀ c ∈ hd :: tl, isSchemeChar c = true)
    (hlower : (hd :: tl).map Char.toLower = hd :: tl)
    (hnl : ∀ c ∈ netloc, notNetlocEnd c = true)
    (hpq : ∀ c ∈ path, ¬(c = '?'))
    (hph : ∀ c ∈ path, ¬(c = '#'))
    (hphead : path = [] ∨ ∃ t, path = '/' :: t)
    (hq : ∀ c ∈ query, ¬(c = '#'))
    (hpar : (hd :: tl) ∈ usesParams ∧ ';' ∈ path →
        splitparams path = (path, [])) :
    urlparse ((hd :: tl) ++ "://".data ++ netloc ++ path
        ++ (if query ≠ [] then '?' :: query else []))
      = ⟨hd :: tl, netloc, path, [], query, []⟩ := by
  have hsplit := urlsplit_reconstruct hd tl netloc path query hda hsc hlower
    hnl hpq hph hphead hq
  unfold urlparse
  rw [hsplit]
  by_cases hc : (hd :: tl) ∈ usesParams ∧ ';' ∈ path
  · rw [if_pos hc]
    rw [hpar hc]
  · rw [if_neg hc]

theorem urlparse_props (url : PyStr) :
    (urlparse url).scheme = (urlsplit url).scheme
      ∧ (urlparse url).netloc = (urlsplit url).netloc
      ∧ (urlparse url).query = (urlsplit url).query
      ∧ (∃ r, (urlparse url).path ++ r = (urlsplit url).path)
      ∧ ((urlparse url).scheme ∈ usesParams ∧ ';' ∈ (urlparse url).path →
          splitparams (urlparse url).path = ((urlparse url).path, [])) := by
  by_cases hc : (urlsplit url).scheme ∈ usesParams ∧ ';' ∈ (urlsplit url).path
  · have hval : urlparse url
        = { urlsplit url with
            path := (splitparams (urlsplit url).path).1,
            params := (splitparams (urlsplit url).path).2 } := by
      unfold urlparse
      rw [if_pos hc]
    rw [hval]
    exact ⟨rfl, rfl, rfl, splitparams_fst_append _,
      fun _ => splitparams_fst_idem _⟩
  · have hval : urlparse url = urlsplit url := by
      unfold urlparse
      rw [if_neg hc]
    rw [hval]
    exact ⟨rfl, rfl, rfl, ⟨[], by simp⟩, fun h => absurd h hc⟩

/-- C10.  `canonicalize_url` is idempotent on every URL that parses with a
non-empty scheme and a non-empty host: re-parsing the canonical output
recovers exactly the same scheme, netloc, path and (already filtered)
query, so a second pass strips nothing further. -/
theorem claim_C10_canonicalize_idempotent (url : PyStr)
    (hs : (urlparse url).scheme ≠ []) (hn : (urlparse url).netloc ≠ []) :
    canonicalize_url (canonicalize_url url) = canonicalize_url url := by
  obtain ⟨hps, hpn, hpq, ⟨rp, hrp⟩, hpclean⟩ := urlparse_props url
  obtain ⟨hschemeP, hnlP, hpathQ, hpathH, hpathHead, hqueryH⟩ := urlsplit_props url
  have hs0 : (urlsplit url).scheme ≠ [] := by rw [← hps]; exact hs
  have hn0 : (urlsplit url).netloc ≠ [] := by rw [← hpn]; exact hn
  obtain ⟨⟨hd, tl, hshape, hdalpha⟩, hall0, hidem0⟩ := hschemeP hs0
  have hscheme_eq : (urlparse url).scheme = hd :: tl := by rw [hps, hshape]
  have hall : ∀ c ∈ hd :: tl, isSchemeChar c = true := by
    rw [← hshape]; exact hall0
  have hlower : (hd :: tl).map Char.toLower = hd :: tl := by
    rw [← hshape]; exact hidem0
  have hnl : ∀ c ∈ (urlparse url).netloc, notNetlocEnd c = true := by
    rw [hpn]; exact hnlP
  have hpq2 : ∀ c ∈ (urlparse url).path, ¬(c = '?') :=
    fun c hc => hpathQ c (mem_of_append_eq hrp hc)
  have hph2 : ∀ c ∈ (urlparse url).path, ¬(c = '#') :=
    fun c hc => hpathH c (mem_of_append_eq hrp hc)
  have hphead2 : (urlparse url).path = [] ∨ ∃ t, (urlparse url).path = '/' :: t := by
    rcases hpathHead hn0 with h | ⟨t, ht⟩
    · left
      rw [h] at hrp
      exact (List.append_eq_nil.mp hrp).1
    · rcases hp : (urlparse url).path with _ | ⟨c0, ct⟩
      · exact Or.inl rfl
      · right
        have hh := head_of_append_eq hrp (by rw [hp]; simp)
        rw [ht, hp] at hh
        injection hh with hh
        exact ⟨ct, by rw [← hh]⟩
  have hq2 : ∀ c ∈ (urlparse url).query, ¬(c = '#') := by
    rw [hpq]; exact hqueryH
  have hparam : (hd :: tl) ∈ usesParams ∧ ';' ∈ (urlparse url).path →
      splitparams (urlparse url).path = ((urlparse url).path, []) := by
    intro hcc
    exact hpclean ⟨by rw [hscheme_eq]; exact hcc.1, hcc.2⟩
  have hco : canonicalize_url url
      = (urlparse url).scheme ++ "://".data ++ (urlparse url).netloc
        ++ (urlparse url).path
        ++ (if (if (urlparse url).query ≠ [] then
              joinSep '&' (keepParams (splitOnChar '&' (urlparse url).query))
            else []) ≠ [] then
            '?' :: (if (urlparse url).query ≠ [] then
              joinSep '&' (keepParams (splitOnChar '&' (urlparse url).query))
            else [])
          else []) := rfl
  by_cases hq0 : (urlparse url).query = []
  · have hco2 : canonicalize_url url
        = (hd :: tl) ++ "://".data ++ (urlparse url).netloc
          ++ (urlparse url).path
          ++ (if ([] : PyStr) ≠ [] then '?' :: ([] : PyStr) else []) := by
      rw [hco, hscheme_eq, hq0]
      simp
    have h2 := urlparse_reconstruct hd tl (urlparse url).netloc
      (urlparse url).path [] hdalpha hall hlower hnl hpq2 hph2 hphead2
      (fun c hc => absurd hc (by simp)) hparam
    rw [← hco2] at h2
    have hfin : canonicalize_url (canonicalize_url url)
        = (hd :: tl) ++ "://".data ++ (urlparse url).netloc
          ++ (urlparse url).path
          ++ (if ([] : PyStr) ≠ [] then '?' :: ([] : PyStr) else []) := by
      show (urlparse (canonicalize_url url)).scheme ++ "://".data
          ++ (urlparse (canonicalize_url url)).netloc
          ++ (urlparse (canonicalize_url url)).path
          ++ _ = _
      rw [h2]
      simp
    rw [hfin, ← hco2]
  · have hkept : ∀ s ∈ keepParams (splitOnChar '&' (urlparse url).query),
        s ∈ splitOnChar '&' (urlparse url).query ∧ '=' ∈ s
          ∧ s.takeWhile (fun c => !(c = '=')) ∉ tracking_params :=
      fun s hs2 => mem_keepParams_sound _ s hs2
    have hkamp : ∀ s ∈ keepParams (splitOnChar '&' (urlparse url).query),
        '&' ∉ s :=
      fun s hs2 =>
        mem_splitOnChar_not_mem '&' (urlparse url).query s (hkept s hs2).1
    have hkne : ∀ s ∈ keepParams (splitOnChar '&' (urlparse url).query),
        s ≠ [] := by
      intro s hs2 hnil
      have := (hkept s hs2).2.1
      rw [hnil] at this
      cases this
    have hqfh : ∀ c ∈ joinSep '&'
        (keepParams (splitOnChar '&' (urlparse url).query)), ¬(c = '#') := by
      intro c hc hch
      subst hch
      rcases mem_joinSep_chars '&' _ '#' hc with h | ⟨s, hsm, hcs⟩
      · cases h
      · apply hq2 '#' _ rfl
        have hin : '#' ∈ joinSep '&' (splitOnChar '&' (urlparse url).query) :=
          mem_joinSep_of_mem '&' _ s '#' (hkept s hsm).1 hcs
        rw [joinSep_splitOnChar] at hin
        exact hin
    have hco2 : canonicalize_url url
        = (hd :: tl) ++ "://".data ++ (urlparse url).netloc
          ++ (urlparse url).path
          ++ (if joinSep '&'
                (keepParams (splitOnChar '&' (urlparse url).query)) ≠ [] then
              '?' :: joinSep '&'
                (keepParams (splitOnChar '&' (urlparse url).query))
            else []) := by
      rw [hco, hscheme_eq, if_pos hq0]
    have h2 := urlparse_reconstruct hd tl (urlparse url).netloc
      (urlparse url).path
      (joinSep '&' (keepParams (splitOnChar '&' (urlparse url).query)))
      hdalpha hall hlower hnl hpq2 hph2 hphead2 hqfh hparam
    rw [← hco2] at h2
    have hfin : canonicalize_url (canonicalize_url url)
        = (hd :: tl) ++ "://".data ++ (urlparse url).netloc
          ++ (urlparse url).path
          ++ (if (if (joinSep '&'
                (keepParams (splitOnChar '&' (urlparse url).query))) ≠ [] then
                joinSep '&' (keepParams (splitOnChar '&' (joinSep '&'
                  (keepParams (splitOnChar '&' (urlparse url).query)))))
              else []) ≠ [] then
              '?' :: (if (joinSep '&'
                  (keepParams (splitOnChar '&' (urlparse url).query))) ≠ [] then
                joinSep '&' (keepParams (splitOnChar '&' (joinSep '&'
                  (keepParams (splitOnChar '&' (urlparse url).query)))))
              else [])
            else []) := by
      show (urlparse (canonicalize_url url)).scheme ++ "://".data
          ++ (urlparse (canonicalize_url url)).netloc
          ++ (urlparse (canonicalize_url url)).path ++ _ = _
      rw [h2]
    by_cases hqf : joinSep '&'
        (keepParams (splitOnChar '&' (urlparse url).query)) = []
    · rw [hfin, hco2, hqf]
      simp
    · have hknil : keepParams (splitOnChar '&' (urlparse url).query) ≠ [] := by
        intro hnil
        rw [hnil] at hqf
        exact hqf rfl
      have hsj : splitOnChar '&' (joinSep '&'
          (keepParams (splitOnChar '&' (urlparse url).query)))
          = keepParams (splitOnChar '&' (urlparse url).query) :=
        splitOnChar_joinSep '&' _ hknil hkamp
      have hkk : keepParams (keepParams (splitOnChar '&' (urlparse url).query))
          = keepParams (splitOnChar '&' (urlparse url).query) :=
        keepParams_of_all _ (fun s hs2 => ⟨(hkept s hs2).2.1, (hkept s hs2).2.2⟩)
      rw [hfin, hco2, hsj, hkk, if_pos hqf]

/-- Witness for C10: a concrete absolute URL with scheme and host, on
which canonicalization is idempotent. -/
theorem claim_C10_canonicalize_idempotent_witness :
    (urlparse "https://example.com/article?utm_source=x&b=2#frag".data).scheme ≠ []
      ∧ (urlparse "https://example.com/article?utm_source=x&b=2#frag".data).netloc ≠ []
      ∧ canonicalize_url (canonicalize_url
            "https://example.com/article?utm_source=x&b=2#frag".data)
          = canonicalize_url "https://example.com/article?utm_source=x&b=2#frag".data :=
  ⟨by decide, by decide,
    claim_C10_canonicalize_idempotent _ (by decide) (by decide)⟩
